import Mathlib

/-!
# A WHOIS client: validation, normalisation, routing and referral following

Shallow embedding of the Go packages `internal/domain`, `internal/provider` and
`internal/resolver`, and of `Lookup` with its error and result types.

* A Go `string` is held as the list of its characters (`Str`).  `len` is the
  byte length of the UTF-8 encoding, so on ASCII text one character is one byte.
* The calls into the Go standard library (`strings`, `regexp`, `fmt.Errorf`,
  `errors.Is`) are embedded by small executable functions that follow the
  documented behaviour of those calls.  `strings.EqualFold` is embedded with
  its loop over `unicode.SimpleFold`, whose table is a field of `Lib`.
* The packages `golang.org/x/net/idna` and `golang.org/x/net/publicsuffix` are
  not part of the program.  The four functions the program calls are fields of
  `Lib`, and every general statement holds for all values of these fields.
* `Resolve` does network input and output; `ResolveWithReferrals` takes it as a
  function from the server to a response or an error, and records the calls.
  Its loop counter is a Go `int` of 64 bits, which wraps; the loop is embedded
  with a bound `fuel` on the number of its tests, and `none` stands for a loop
  that has not returned within the bound.
  `Resolve` itself is embedded over a connection given as a byte stream with
  its ending, and `ParseConfigFromFile` over the file read and the YAML decoder
  as functions.
-/

set_option autoImplicit false

namespace Whois

/-! ## Strings -/

/-- A Go string, as the list of its characters. -/
abbrev Str := List Char

/-- Go `len(s)` on a string: the number of bytes of its UTF-8 encoding. -/
def len (s : Str) : Nat := (s.map Char.utf8Size).sum

/-- Go `unicode.IsSpace`: the Latin-1 spaces and the code points with the
White_Space property. -/
def isSpace (c : Char) : Bool :=
  c == '\t' || c == '\n' || c == '\x0b' || c == '\x0c' || c == '\r' || c == ' ' ||
  c.toNat == 0x85 || c.toNat == 0xA0 || c.toNat == 0x1680 ||
  (decide (0x2000 ≤ c.toNat) && decide (c.toNat ≤ 0x200A)) ||
  c.toNat == 0x2028 || c.toNat == 0x2029 || c.toNat == 0x202F ||
  c.toNat == 0x205F || c.toNat == 0x3000

/-- Go `strings.TrimSpace`: leading and trailing white space removed. -/
def TrimSpace (s : Str) : Str := (s.dropWhile isSpace).rdropWhile isSpace

/-- Go `strings.Split(s, sep)` for a one-character separator: the pieces between
the separators, one more than there are separators. -/
def Split : Str → Char → List Str
  | [], _ => [[]]
  | c :: t, sep =>
    if c = sep then [] :: Split t sep
    else (c :: (Split t sep).headD []) :: (Split t sep).tail

/-- Lower-casing of one ASCII letter; every other character is kept. -/
def asciiLower (c : Char) : Char :=
  if 'A' ≤ c ∧ c ≤ 'Z' then Char.ofNat (c.toNat + 32) else c

/-- A string of ASCII characters only. -/
def isASCII (s : Str) : Bool := s.all fun c => decide (c.toNat < 128)

/-! ## External libraries -/

/-- The functions of `golang.org/x/net/idna` and `golang.org/x/net/publicsuffix`
that the program calls, and the Unicode tables behind `strings.ToLower` and
`strings.EqualFold`.  A failing call (non-nil `error`) is `none`. -/
structure Lib where
  /-- The call `idna.ToASCII` (the raw Punycode profile). -/
  ToASCII : Str → Option Str
  /-- The call `idna.Lookup.ToASCII`. -/
  LookupToASCII : Str → Option Str
  /-- The call `publicsuffix.PublicSuffix`: the suffix and the ICANN flag. -/
  PublicSuffix : Str → Str × Bool
  /-- The call `publicsuffix.EffectiveTLDPlusOne`. -/
  EffectiveTLDPlusOne : Str → Option Str
  /-- The map `unicode.ToLower` on the characters outside ASCII. -/
  unicodeLower : Char → Char
  /-- The call `unicode.SimpleFold`: the next character of the case-folding
  orbit, the smallest one after the largest. -/
  SimpleFold : Char → Char

/-- Go `strings.ToLower`: ASCII letters are lower-cased directly, every other
character goes through `unicode.ToLower`. -/
def ToLower (L : Lib) (s : Str) : Str :=
  s.map fun c => if c.toNat < 128 then asciiLower c else L.unicodeLower c

/-! ## internal/domain/validation.go -/

/-- The character test of the inner loop of `IsValid`:
`(ch >= 'a' && ch <= 'z') || (ch >= '0' && ch <= '9') || ch == '-'`. -/
def labelChar (ch : Char) : Bool :=
  (decide ('a' ≤ ch) && decide (ch ≤ 'z')) || (decide ('0' ≤ ch) && decide (ch ≤ '9')) || ch == '-'

/-- The body of the loop over the labels in `IsValid`: `false` where the Go loop
returns false, `true` where it goes on to the next label.  The byte tests
`label[0]` and `label[len(label)-1]` against the ASCII hyphen hold exactly when
the first, respectively last, character is the hyphen. -/
def labelOK (label : Str) : Bool :=
  if len label == 0 || decide (len label > 63) then false
  else if label.head? == some '-' || label.getLast? == some '-' then false
  else label.all labelChar

/-- Go `IsValid(domain string) bool`. -/
def IsValid (L : Lib) (domain : Str) : Bool :=
  let domain := TrimSpace domain
  if domain == [] || decide (len domain > 253) then false
  else
    match L.ToASCII domain with
    | none => false
    | some ascii =>
      if decide (len ascii > 253) then false
      else
        let labels := Split ascii '.'
        if decide (labels.length < 2) then false
        else labels.all labelOK

/-! ## internal/domain/domain.go -/

/-- The standardized domain errors `ErrPublicSuffix`, `ErrEmptyDomain`,
`ErrInvalidDomain`. -/
inductive DomainError
  | ErrPublicSuffix
  | ErrEmptyDomain
  | ErrInvalidDomain
  deriving DecidableEq

deriving instance DecidableEq for Except

/-- Go `type Domain struct`. -/
structure Domain where
  Raw : Str
  Name : Str
  TLD : Str
  ICANN : Bool
  IsCustom : Bool
  deriving DecidableEq

/-- Go `strings.TrimSuffix(s, suffix)`: `s` without the trailing `suffix`, or `s`
itself when it does not end with `suffix`. -/
def TrimSuffix (s suffix : Str) : Str :=
  if suffix <:+ s then s.take (s.length - suffix.length) else s

/-- Go `Parse(raw string) (*Domain, error)`. -/
def Parse (L : Lib) (raw : Str) : Except DomainError Domain :=
  let norm := ToLower L (TrimSpace raw)
  if norm == [] then .error .ErrEmptyDomain
  else
    match L.LookupToASCII norm with
    | none => .error .ErrInvalidDomain
    | some ascii =>
      if !IsValid L ascii then .error .ErrInvalidDomain
      else
        let tld := (L.PublicSuffix ascii).1
        let icann := (L.PublicSuffix ascii).2
        if tld == [] then .error .ErrPublicSuffix
        else
          match L.EffectiveTLDPlusOne ascii with
          | none => .error .ErrPublicSuffix
          | some baseDomain =>
            let name := TrimSuffix baseDomain ('.' :: tld)
            .ok { Raw := raw, Name := name, TLD := tld, ICANN := icann, IsCustom := !icann }

/-- Go `(d *Domain) String()`. -/
def Domain.String (d : Domain) : Str :=
  if d.Name == [] then d.TLD else d.Name ++ '.' :: d.TLD

/-! ## internal/resolver/provider.go -/

/-- The standardized provider errors. -/
inductive ProviderError
  | ErrConfigReadFailed
  | ErrConfigParseFailed
  | ErrEmptyZoneConfig
  | ErrTLDNotSupported
  | ErrInvalidDomain
  deriving DecidableEq

/-- Go `type ZoneConfig struct`. -/
structure ZoneConfig where
  Host : Str
  Query : Str
  deriving DecidableEq

/-- Go `type Provider struct`.  The Go map `tldServers` is held as the list of
its key/value pairs; `List.lookup` is the map access `m[key]`. -/
structure Provider where
  tldServers : List (Str × ZoneConfig)
  ipServer : Option ZoneConfig

/-- Go `(p *Provider) GetServer(domain)`: `(nil, err)` is `.error err`, and
`(&server, nil)` is `.ok server`. -/
def Provider.GetServer (p : Provider) (domain : Domain) : Except ProviderError ZoneConfig :=
  if domain.TLD == [] then .error .ErrInvalidDomain
  else
    match p.tldServers.lookup domain.TLD with
    | none => .error .ErrTLDNotSupported
    | some server => .ok server

/-! ## internal/resolver/query.go -/

/-- The scan behind `strings.ReplaceAll` for a non-empty `old`: left to right,
each occurrence of `old` found at the current position is replaced by `new` and
skipped (`skip` counts the bytes of a match still to pass over), every other
character is copied. -/
def replaceFrom (old new : Str) : Nat → Str → Str
  | _, [] => []
  | skip + 1, _ :: t => replaceFrom old new skip t
  | 0, c :: t =>
    if old.isPrefixOf (c :: t) then new ++ replaceFrom old new (old.length - 1) t
    else c :: replaceFrom old new 0 t

/-- Go `strings.ReplaceAll(s, old, new)`: all non-overlapping occurrences of
`old` replaced by `new`; an empty `old` matches before every character and at
the end. -/
def ReplaceAll (s old new : Str) : Str :=
  if old == [] then new ++ s.flatMap (fun c => c :: new) else replaceFrom old new 0 s

/-- Go `buildQuery(server *ZoneConfig, domain string) string`. -/
def buildQuery (server : ZoneConfig) (domain : Str) : Str :=
  let query := if server.Query == [] then "$addr\r\n".toList else server.Query
  ReplaceAll query "$addr".toList domain

/-! ## internal/resolver/resolver.go -/

/-- The standardized resolver errors. -/
inductive ResolverError
  | ErrConnectionFailed
  | ErrSetDeadlineFailed
  | ErrWriteQueryFailed
  | ErrReadResponseFailed
  | ErrRequestTimeout
  | ErrWhoisQueryFailed
  | ErrInfinityLoop
  deriving DecidableEq

/-- The message of each `errors.New` value. -/
def ResolverError.Error : ResolverError → Str
  | .ErrConnectionFailed => "resolver: failed to connect".toList
  | .ErrSetDeadlineFailed => "resolver: failed to set deadline".toList
  | .ErrWriteQueryFailed => "resolver: failed to write query".toList
  | .ErrReadResponseFailed => "resolver: failed to read response".toList
  | .ErrRequestTimeout => "resolver: request timeout".toList
  | .ErrWhoisQueryFailed => "resolver: whois query failed".toList
  | .ErrInfinityLoop => "resolver: referral loop detected or max follow exceeded".toList

/-- A Go `error` of the resolver: one of the `errors.New` values, or the value
of `fmt.Errorf("%w: %v", wrapped, err)`, which wraps `wrapped` and formats `err`,
held by its message `cause`. -/
inductive GoError
  | sentinel (e : ResolverError)
  | errorf (wrapped : ResolverError) (cause : Str)
  deriving DecidableEq

/-- The method `Error()`: the message. -/
def GoError.Error : GoError → Str
  | .sentinel e => e.Error
  | .errorf w cause => w.Error ++ ": ".toList ++ cause

/-- Go `errors.Is(err, target)` for a target among the `errors.New` values. -/
def GoError.Is : GoError → ResolverError → Bool
  | .sentinel e, target => e == target
  | .errorf w _, target => w == target

/-- The loop `for r != sr && r < tr { r = unicode.SimpleFold(r) }` of
`strings.EqualFold`, from the value `r`.  The loop walks one variable, so a run
of it that ends does so before any value comes twice, within `0x110000` steps,
the number given as the first argument by `equalFoldRune`. -/
def foldClimb (L : Lib) (sr tr : Char) : Nat → Char → Char
  | 0, r => r
  | n + 1, r => if r ≠ sr ∧ r < tr then foldClimb L sr tr n (L.SimpleFold r) else r

/-- The body of the loop of `strings.EqualFold` on one character `sr` of `s` and
one character `tr` of `t`: equal characters pass; otherwise the two are put in
order; when the larger one is ASCII the smaller one must be a letter `A` to `Z`
and the larger one that letter in lower case; otherwise `unicode.SimpleFold`
is walked from the smaller one up to the larger one. -/
def equalFoldRune (L : Lib) (sr tr : Char) : Bool :=
  if tr = sr then true
  else
    let lo := if tr < sr then tr else sr
    let hi := if tr < sr then sr else tr
    if hi.toNat < 0x80 then decide ('A' ≤ lo ∧ lo ≤ 'Z') && hi.toNat == lo.toNat + 32
    else foldClimb L lo hi 0x110000 (L.SimpleFold lo) == hi

/-- Go `strings.EqualFold`: equality under simple Unicode case folding,
character by character; strings of different lengths are not equal. -/
def EqualFold (L : Lib) : Str → Str → Bool
  | [], [] => true
  | sr :: s, tr :: t => equalFoldRune L sr tr && EqualFold L s t
  | _, _ => false

/-- The class `\s` of Go `regexp`: `[\t\n\f\r ]`. -/
def reSpace (c : Char) : Bool :=
  c == '\t' || c == '\n' || c == '\x0c' || c == '\r' || c == ' '

/-- One literal character `p` of the pattern against a character `c` of the text
under the flag `i`: equal up to ASCII case, or `c` is one of the two letters
outside ASCII that fold to an ASCII letter (U+017F to s, U+212A to k). -/
def reFold (p c : Char) : Bool :=
  asciiLower p == asciiLower c ||
  (asciiLower p == 's' && c.toNat == 0x17F) || (asciiLower p == 'k' && c.toNat == 0x212A)

/-- A literal of the pattern at the head of the text: the rest of the text. -/
def reLit : Str → Str → Option Str
  | [], t => some t
  | _ :: _, [] => none
  | p :: ps, c :: t => if reFold p c then reLit ps t else none

/-- Greedy `x*` for a character class `x`, followed by the rest `k` of the
pattern: the longest run first, then the shorter ones. -/
def reStar (x : Char → Bool) (k : Str → Option Str) : Str → Option Str
  | [] => k []
  | c :: t =>
    if x c then
      match reStar x k t with
      | some r => some r
      | none => k (c :: t)
    else k (c :: t)

/-- Greedy capturing `(x*)` after the captured characters `acc`. -/
def reStarCap (x : Char → Bool) (k : Str → Str → Option Str) : Str → Str → Option Str
  | acc, [] => k acc []
  | acc, c :: t =>
    if x c then
      match reStarCap x k (acc ++ [c]) t with
      | some r => some r
      | none => k acc (c :: t)
    else k acc (c :: t)

/-- Greedy capturing `(x+)`. -/
def rePlusCap (x : Char → Bool) (k : Str → Str → Option Str) : Str → Option Str
  | [] => none
  | c :: t => if x c then reStarCap x k [c] t else none

/-- The assertion `$` under the flag `m`: at the end of the text or before a
line feed. -/
def reEnd (t : Str) : Bool := t == [] || t.head? == some '\n'

/-- The part `([^\s]+)\s*$` of the pattern: the captured group. -/
def reHost (t : Str) : Option Str :=
  rePlusCap (fun c => !reSpace c)
    (fun host r => reStar reSpace (fun r2 => if reEnd r2 then some host else none) r) t

/-- The part `(?:whois://)?([^\s]+)\s*$`: the optional group is tried first. -/
def reTarget (t : Str) : Option Str :=
  match (reLit "whois://".toList t).bind reHost with
  | some host => some host
  | none => reHost t

/-- The part `:\s*(?:whois://)?([^\s]+)\s*$`. -/
def reValue : Str → Option Str
  | ':' :: t => reStar reSpace reTarget t
  | _ => none

/-- The pattern after `^`, that is
`(Whois Server|ReferralServer):\s*(?:whois://)?([^\s]+)\s*$`
at the head of the text: the second submatch of the preferred match. -/
def reLine (t : Str) : Option Str :=
  match (reLit "Whois Server".toList t).bind reValue with
  | some host => some host
  | none => (reLit "ReferralServer".toList t).bind reValue

/-- The search of `FindStringSubmatch`: the leftmost position where the pattern
matches; `bol` tells whether `^` (flag `m`) holds at the head of the text. -/
def reFind : Bool → Str → Option Str
  | bol, [] => if bol then reLine [] else none
  | bol, c :: t =>
    match (if bol then reLine (c :: t) else none) with
    | some host => some host
    | none => reFind (c == '\n') t

/-- Go `(r *Resolver) FindReferralServer(data string) string`. -/
def FindReferralServer (data : Str) : Str :=
  match reFind true data with
  | some host => TrimSpace host
  | none => []

/-- What one call of `ResolveWithReferrals` returns (`Raw`, `Host`, `Err`, with
`none` for a nil error), and the servers it passed to `Resolve`, in order. -/
structure Run where
  Raw : Str
  Host : Str
  Err : Option GoError
  Calls : List ZoneConfig
  deriving DecidableEq

/-- The largest value of a Go `int`, on a 64-bit platform. -/
def maxInt : Int := 9223372036854775807

/-- The value of a Go `int` of 64 bits after an operation with the exact result
`x`: two's complement wrapping. -/
def wrapInt (x : Int) : Int :=
  (x + 9223372036854775808) % 18446744073709551616 - 9223372036854775808

/-- The `for` loop of `ResolveWithReferrals` from the test `i <= r.maxFollow`
on, with the counter `i`, the set `visited`, the current `server` and the calls
of `Resolve` made so far.  The call `r.Resolve(ctx, domainName, server)` is the
function `resolve`; `i++` wraps.  The first argument bounds the number of tests
of the loop condition; `none` says that the loop has not returned within it. -/
def resolveLoop (L : Lib) (maxFollow : Int) (resolve : ZoneConfig → Except GoError Str) :
    Nat → Int → List Str → ZoneConfig → List ZoneConfig → Option Run
  | 0, _, _, _, _ => none
  | fuel + 1, i, visited, server, calls =>
    if i ≤ maxFollow then
      if server.Host ∈ visited then
        some ⟨[], server.Host, some (.sentinel .ErrInfinityLoop), calls⟩
      else
        match resolve server with
        | .error err =>
          some ⟨[], server.Host, some (.errorf .ErrWhoisQueryFailed err.Error),
            calls ++ [server]⟩
        | .ok raw =>
          let ref := FindReferralServer raw
          if ref == [] || EqualFold L ref server.Host then
            some ⟨raw, server.Host, none, calls ++ [server]⟩
          else
            resolveLoop L maxFollow resolve fuel (wrapInt (i + 1)) (server.Host :: visited)
              ⟨ref, []⟩ (calls ++ [server])
    else some ⟨[], server.Host, some (.sentinel .ErrInfinityLoop), calls⟩

/-- Go `(r *Resolver) ResolveWithReferrals(ctx, domainName, server)`, with
`r.maxFollow` and a bound `fuel` on the number of tests of the loop condition:
what the call returns, or `none` when it has not returned within the bound. -/
def ResolveWithReferrals (L : Lib) (maxFollow : Int)
    (resolve : ZoneConfig → Except GoError Str) (server : ZoneConfig) (fuel : Nat) :
    Option Run :=
  resolveLoop L maxFollow resolve fuel 0 [] server []

/-- An error of a read other than `io.EOF`: whether it is a `net.Error` whose
`Timeout()` holds, and its message. -/
structure ReadError where
  Timeout : Bool
  msg : Str
  deriving DecidableEq

/-- How the read after the last unit of a stream ends: with `io.EOF`, the normal
end, or with an error. -/
inductive ReadEnd
  | eof
  | error (err : ReadError)
  deriving DecidableEq

/-- An `io.Reader`: the units it delivers, in order, and how the read after the
last unit ends.  The units are the bytes of the stream; on ASCII text they are
its characters. -/
structure Reader (β : Type) where
  stream : List β
  ending : ReadEnd

/-- Go `io.LimitReader(r, n)`: it delivers at most `n` units of `r` and then
ends with `io.EOF` without reading `r` again; `n <= 0` gives `io.EOF` at once. -/
def LimitReader {β : Type} (r : Reader β) (n : Int) : Reader β :=
  ⟨r.stream.take n.toNat, if n.toNat ≤ r.stream.length then .eof else r.ending⟩

/-- Go `io.ReadAll(r)`: everything up to `io.EOF`, which is not an error; any
other end is returned as the error. -/
def ReadAll {β : Type} (r : Reader β) : Except ReadError (List β) :=
  match r.ending with
  | .eof => .ok r.stream
  | .error err => .error err

/-- A `net.Conn` as `Resolve` uses it: the error of `SetDeadline` and of `Write`
(`none` for nil), and the stream the server sends. -/
structure Conn (β : Type) where
  SetDeadline : Option Str
  Write : Str → Option Str
  reader : Reader β

/-- Go `(r *Resolver) Resolve(ctx, domain, server)`.  The call
`dialer.DialContext(ctx, "tcp", addr)` for the host and the port of `addr` is
the function `dial`; `string(data)` keeps the bytes read. -/
def Resolve {β : Type} (dial : Str → Int → Except Str (Conn β)) (port maxResponse : Int)
    (domain : Domain) (server : ZoneConfig) : Except GoError (List β) :=
  match dial server.Host port with
  | .error err => .error (.errorf .ErrConnectionFailed err)
  | .ok conn =>
    match conn.SetDeadline with
    | some err => .error (.errorf .ErrSetDeadlineFailed err)
    | none =>
      let query := buildQuery server domain.String
      match conn.Write query with
      | some err => .error (.errorf .ErrWriteQueryFailed err)
      | none =>
        match ReadAll (LimitReader conn.reader maxResponse) with
        | .error err =>
          if err.Timeout then .error (.errorf .ErrRequestTimeout err.msg)
          else .error (.errorf .ErrReadResponseFailed err.msg)
        | .ok data => .ok data

/-! ## internal/resolver/provider.go: construction -/

/-- An `error` returned by `ParseConfigFromFile`: one of the `errors.New` values,
or the value of `fmt.Errorf("%w: %v", wrapped, err)` with the message of `err`. -/
inductive ConfigError
  | sentinel (e : ProviderError)
  | errorf (wrapped : ProviderError) (cause : Str)
  deriving DecidableEq

/-- The local variable `raw` of `ParseConfigFromFile` after `json.Unmarshal`:
the map `Zones`, as the list of its entries, and the entry `IP`. -/
structure RawConfig where
  Zones : List (Str × ZoneConfig)
  IP : ZoneConfig

/-- Go `ParseConfigFromFile(path)`.  The calls `os.ReadFile` and
`json.Unmarshal` are the functions `readFile` and `unmarshal`, an error being
its message.  The loop over `raw.Zones` keeps the entries with
`len(cfg.Host) > 0`. -/
def ParseConfigFromFile {δ : Type} (readFile : Str → Except Str δ)
    (unmarshal : δ → Except Str RawConfig) (path : Str) : Except ConfigError Provider :=
  match readFile path with
  | .error err => .error (.errorf .ErrConfigReadFailed err)
  | .ok data =>
    match unmarshal data with
    | .error err => .error (.errorf .ErrConfigParseFailed err)
    | .ok raw =>
      let tldServers := raw.Zones.filter fun kv => decide (len kv.2.Host > 0)
      if tldServers.length == 0 then .error (.sentinel .ErrEmptyZoneConfig)
      else
        let ipServer := if len raw.IP.Host > 0 then some raw.IP else none
        .ok ⟨tldServers, ipServer⟩

/-! ## error.go, types.go, whois.go -/

/-- Go `type ErrorCode string` with its three constants. -/
inductive ErrorCode
  | ErrInvalidDomain
  | ErrServerNotFound
  | ErrQuery
  deriving DecidableEq

/-- The string of each `ErrorCode` constant. -/
def ErrorCode.text : ErrorCode → Str
  | .ErrInvalidDomain => "INVALID_DOMAIN".toList
  | .ErrServerNotFound => "SERVER_NOT_FOUND".toList
  | .ErrQuery => "QUERY_ERROR".toList

/-- The `error` values that `Lookup` wraps: the value of
`fmt.Errorf("invalid domain: %q", input)`, an error of `Parse`, an error of
`GetServer`, an error of `ResolveWithReferrals`. -/
inductive Cause
  | invalidInput (input : Str)
  | domain (err : DomainError)
  | provider (err : ProviderError)
  | resolver (err : GoError)
  deriving DecidableEq

/-- Go `type Error struct`; a nil `Err` is `none`. -/
structure Error where
  Domain : Str
  Server : Str
  Code : ErrorCode
  Err : Option Cause
  deriving DecidableEq

/-- Go `NewError(domain, server, code, err)`. -/
def NewError (domain server : Str) (code : ErrorCode) (err : Option Cause) : Error :=
  { Domain := domain, Server := server, Code := code, Err := err }

/-- Go `type Result struct`. -/
structure Result where
  RawData : Str
  Domain : Str
  ReferralServer : Str
  deriving DecidableEq

set_option linter.dupNamespace false

/-- Go `type Whois struct`, by what `Lookup` reads of it: `resolver.maxFollow`,
`provider`, and `opts.server` (`none` for nil). -/
structure Whois where
  maxFollow : Int
  provider : Provider
  server : Option ZoneConfig

/-- What one call of `Lookup` returns (`none` for nil), the domains it passed to
`GetServer` and the servers it passed to `Resolve`, in order. -/
structure LookupRun where
  Result : Option Result
  Err : Option Error
  Directory : List Domain
  Calls : List ZoneConfig
  deriving DecidableEq

/-- The end of `Lookup`, from the call of `ResolveWithReferrals` on. -/
def lookupQuery (L : Lib) (maxFollow : Int) (resolve : ZoneConfig → Except GoError Str)
    (domainName : Domain) (server : ZoneConfig) (directory : List Domain) (fuel : Nat) :
    Option LookupRun :=
  match ResolveWithReferrals L maxFollow resolve server fuel with
  | none => none
  | some run =>
    match run.Err with
    | some err =>
      some ⟨none, some (NewError domainName.String run.Host .ErrQuery (some (.resolver err))),
        directory, run.Calls⟩
    | none =>
      some ⟨some ⟨run.Raw, domainName.String, run.Host⟩, none, directory, run.Calls⟩

/-- Go `(w *Whois) Lookup(ctx, input)`.  The call
`r.Resolve(ctx, domainName, server)` is `resolve domainName server`; `fuel`
bounds the loop of `ResolveWithReferrals`, and `none` says that the call has not
returned within the bound. -/
def Whois.Lookup (L : Lib) (resolve : Domain → ZoneConfig → Except GoError Str) (w : Whois)
    (input : Str) (fuel : Nat) : Option LookupRun :=
  if !IsValid L input then
    some ⟨none, some (NewError input [] .ErrInvalidDomain (some (.invalidInput input))), [], []⟩
  else
    match Parse L input with
    | .error err =>
      some ⟨none, some (NewError input [] .ErrInvalidDomain (some (.domain err))), [], []⟩
    | .ok domainName =>
      match w.server with
      | some server =>
        lookupQuery L w.maxFollow (resolve domainName) domainName server [] fuel
      | none =>
        match w.provider.GetServer domainName with
        | .error err =>
          some ⟨none,
            some (NewError domainName.String [] .ErrServerNotFound (some (.provider err))),
            [domainName], []⟩
        | .ok server =>
          lookupQuery L w.maxFollow (resolve domainName) domainName server [domainName] fuel

/-! ## A stand-in for the external libraries

Closed examples need the libraries at concrete names.  `sampleLib` agrees with
them on the names used in the examples of this file: lower-case names of
letters and dots, which both IDNA conversions return unchanged, under the rules
of the public suffix list that the tests of the package rely on, and host names
of ASCII characters and the Kelvin sign, for the case folding. -/

/-- The rules `com`, `uk`, `co.uk`, `io`, `academy` (ICANN section) and
`blogspot.com` (private section) of the public suffix list. -/
def sampleRules : List (Str × Bool) :=
  [("com".toList, true), ("uk".toList, true), ("co.uk".toList, true), ("io".toList, true),
   ("academy".toList, true), ("blogspot.com".toList, false)]

/-- The longest rule among `rules` that ends `domain` at a label boundary. -/
def longestRule (domain : Str) : List (Str × Bool) → Option (Str × Bool)
  | [] => none
  | r :: rs =>
    let best := longestRule domain rs
    if domain == r.1 || ('.' :: r.1).isSuffixOf domain then
      match best with
      | some b => if b.1.length < r.1.length then some r else some b
      | none => some r
    else best

/-- The public suffix under `sampleRules`; when no rule matches, the last label
(the implicit rule `*`), outside the ICANN section. -/
def samplePublicSuffix (domain : Str) : Str × Bool :=
  match longestRule domain sampleRules with
  | some r => r
  | none => ((Split domain '.').getLastD [], false)

/-- The public suffix with the label before it, cut from the end of the name; an
error for a name with an empty label and for a name that is itself a public
suffix, which has no label before the suffix. -/
def sampleEffectiveTLDPlusOne (domain : Str) : Option Str :=
  if domain.head? == some '.' || domain.getLast? == some '.' ||
      decide ("..".toList <:+: domain) then none
  else
    let suffix := (samplePublicSuffix domain).1
    if domain.length ≤ suffix.length then none
    else
      let i := domain.length - suffix.length - 1
      if domain.get? i != some '.' then none
      else some ((Split (domain.take i) '.').getLastD [] ++ domain.drop i)

/-- The call `unicode.SimpleFold` on the orbits of the ASCII letters: a letter
and its other case, with U+212A (the Kelvin sign) in the orbit of `k` and U+017F
(the long s) in the orbit of `s`.  The stand-in returns every other character
unchanged, as the library does for a character without case. -/
def sampleFold (c : Char) : Char :=
  if c = 'K' then 'k' else if c = 'k' then Char.ofNat 0x212A
  else if c.toNat = 0x212A then 'K'
  else if c = 'S' then 's' else if c = 's' then Char.ofNat 0x17F
  else if c.toNat = 0x17F then 'S'
  else if 'A' ≤ c ∧ c ≤ 'Z' then Char.ofNat (c.toNat + 32)
  else if 'a' ≤ c ∧ c ≤ 'z' then Char.ofNat (c.toNat - 32)
  else c

/-- The stand-in: both conversions return the name unchanged. -/
def sampleLib : Lib where
  ToASCII := some
  LookupToASCII := some
  PublicSuffix := samplePublicSuffix
  EffectiveTLDPlusOne := sampleEffectiveTLDPlusOne
  unicodeLower := id
  SimpleFold := sampleFold

/-! ## The validation contract, in the words of the specification -/

/-- A character of `[a-z0-9-]`. -/
def InAlphabet (c : Char) : Prop :=
  ('a' ≤ c ∧ c ≤ 'z') ∨ ('0' ≤ c ∧ c ≤ '9') ∨ c = '-'

instance : DecidablePred InAlphabet :=
  fun c => inferInstanceAs (Decidable (('a' ≤ c ∧ c ≤ 'z') ∨ ('0' ≤ c ∧ c ≤ '9') ∨ c = '-'))

/-- A legal label: non-empty, at most 63 bytes, no hyphen at either end, only
characters of `[a-z0-9-]`. -/
def LabelRules (label : Str) : Prop :=
  label ≠ [] ∧ len label ≤ 63 ∧ label.head? ≠ some '-' ∧ label.getLast? ≠ some '-' ∧
    ∀ c ∈ label, InAlphabet c

instance : DecidablePred LabelRules :=
  fun label => inferInstanceAs (Decidable (label ≠ [] ∧ len label ≤ 63 ∧
    label.head? ≠ some '-' ∧ label.getLast? ≠ some '-' ∧ ∀ c ∈ label, InAlphabet c))

/-- A legal domain string: at most 253 bytes, at least two labels between the
dots, every label legal. -/
def DomainRules (s : Str) : Prop :=
  len s ≤ 253 ∧ 2 ≤ (Split s '.').length ∧ ∀ label ∈ Split s '.', LabelRules label

instance : DecidablePred DomainRules :=
  fun s => inferInstanceAs (Decidable (len s ≤ 253 ∧ 2 ≤ (Split s '.').length ∧
    ∀ label ∈ Split s '.', LabelRules label))

/-! ## The contract of the public suffix library -/

/-- What `publicsuffix.EffectiveTLDPlusOne` promises at `domain`: a result is
the public suffix of `domain` with the one label before it, and it ends
`domain` at a label boundary. -/
def ETLDPlusOneContract (L : Lib) (domain : Str) : Prop :=
  ∀ base, L.EffectiveTLDPlusOne domain = some base →
    ∃ pre label, domain = pre ++ base ∧ (pre = [] ∨ pre.getLast? = some '.') ∧
      base = label ++ '.' :: (L.PublicSuffix domain).1 ∧ label ≠ [] ∧ '.' ∉ label

/-! ## The contract of the IDNA conversions on the dots -/

/-- What an IDNA conversion of `s` into `a` keeps: it works label by label, so
`a` has as many labels as `s`, and an empty label stays empty. -/
def KeepsLabels (s a : Str) : Prop :=
  (Split a '.').length = (Split s '.').length ∧ ([] ∈ Split s '.' → [] ∈ Split a '.')

instance (s a : Str) : Decidable (KeepsLabels s a) :=
  inferInstanceAs (Decidable ((Split a '.').length = (Split s '.').length ∧
    ([] ∈ Split s '.' → [] ∈ Split a '.')))

/-! ## Upper case and ACE labels -/

/-- The string holds an upper-case ASCII letter `A` to `Z`. -/
def hasUpper (s : Str) : Bool := s.any fun c => decide ('A' ≤ c ∧ c ≤ 'Z')

/-- The Punycode conversion at a name with an ACE label: `idna.ToASCII` decodes
the label `xn--mnchen-3YA`, reading the digits after the last hyphen in either
case, and encodes the result again, with the digits in lower case. -/
def aceToASCII (s : Str) : Option Str :=
  if s = "xn--mnchen-3YA.com".toList then some "xn--mnchen-3ya.com".toList else some s

/-- The stand-in for the libraries, with `aceToASCII` as the Punycode
conversion. -/
def aceLib : Lib := { sampleLib with ToASCII := aceToASCII }

/-- A client with a directory for `com` and no server override. -/
def sampleClient : Whois :=
  ⟨10, ⟨[("com".toList, ⟨"whois.verisign-grs.com".toList, []⟩)], none⟩, none⟩

/-! ## Referral lines, in the words of the specification -/

/-- The text begins, up to case, with `Whois Server` or `ReferralServer` and a
colon. -/
def beginsWithLabel (t : Str) : Bool :=
  match reLit "Whois Server".toList t with
  | some (':' :: _) => true
  | _ =>
    match reLit "ReferralServer".toList t with
    | some (':' :: _) => true
    | _ => false

/-- No line of the text begins with one of the two labels: the text does not at
its start, nor after any line feed. -/
def NoLabelLine (data : Str) : Prop :=
  ∀ p q, data = p ++ q → (p = [] ∨ p.getLast? = some '\n') → beginsWithLabel q = false

/-- The token without the scheme `whois://` (up to case) in front; a token that
is the scheme alone is kept. -/
def stripScheme (token : Str) : Str :=
  match reLit "whois://".toList token with
  | some [] => token
  | some rest => rest
  | none => token

/-- The scan for a line of `pre` that begins with a label, in the text
`pre ++ t`: `true` when there is none; `bol` tells whether `pre` starts a line. -/
def labelFree : Bool → Str → Str → Bool
  | _, [], _ => true
  | bol, c :: p, t =>
    (!bol || !beginsWithLabel (c :: (p ++ t))) && labelFree (c == '\n') p t

/-! ## Referral chains -/

/-- The loop of `ResolveWithReferrals` read by the number `n` of iterations that
the counter still allows, for the proofs: `resolveLoop` returns what this loop
returns for some `n` (`resolveLoop_counted`). -/
def countedLoop (L : Lib) (resolve : ZoneConfig → Except GoError Str) :
    Nat → List Str → ZoneConfig → List ZoneConfig → Run
  | 0, _, server, calls => ⟨[], server.Host, some (.sentinel .ErrInfinityLoop), calls⟩
  | n + 1, visited, server, calls =>
    if server.Host ∈ visited then ⟨[], server.Host, some (.sentinel .ErrInfinityLoop), calls⟩
    else
      match resolve server with
      | .error err =>
        ⟨[], server.Host, some (.errorf .ErrWhoisQueryFailed err.Error), calls ++ [server]⟩
      | .ok raw =>
        let ref := FindReferralServer raw
        if ref == [] || EqualFold L ref server.Host then
          ⟨raw, server.Host, none, calls ++ [server]⟩
        else countedLoop L resolve n (server.Host :: visited) ⟨ref, []⟩ (calls ++ [server])

/-- The loop goes on from `z` to `z2`: the call on `z` succeeds, its response
names a referral host that is not the host of `z` under `EqualFold`, and `z2` is the
zone `ZoneConfig{Host: ref}` the loop builds for it. -/
def Follows (L : Lib) (resolve : ZoneConfig → Except GoError Str) (z z2 : ZoneConfig) :
    Prop :=
  ∃ raw, resolve z = .ok raw ∧ FindReferralServer raw ≠ [] ∧
    EqualFold L (FindReferralServer raw) z.Host = false ∧ z2 = ⟨FindReferralServer raw, []⟩

/-- How a call of `Resolve` on `z` ended the run `r`: it was the last call, and
either it succeeded and its response is returned, or it failed and its error is
wrapped. -/
def EndsAt (L : Lib) (resolve : ZoneConfig → Except GoError Str) (r : Run) (z : ZoneConfig) :
    Prop :=
  r.Calls.getLast? = some z ∧ r.Host = z.Host ∧
    ((∃ raw, resolve z = .ok raw ∧
        (FindReferralServer raw = [] ∨ EqualFold L (FindReferralServer raw) z.Host = true) ∧
        r.Raw = raw ∧ r.Err = none) ∨
      (∃ e, resolve z = .error e ∧ r.Raw = [] ∧
        r.Err = some (.errorf .ErrWhoisQueryFailed e.Error)))

/-- A chain of pairwise distinct hosts whose second host is the first in upper
case: `a`, `A`, `bb`, `bbb`, and so on. -/
def caseChain : Nat → Str
  | 0 => ['a']
  | 1 => ['A']
  | n + 2 => List.replicate (n + 2) 'b'

/-- The host that follows a host of `caseChain`. -/
def caseNext (host : Str) : Str :=
  if host = ['a'] then ['A'] else if host = ['A'] then ['b', 'b'] else 'b' :: host

/-- Every server answers with a referral to the next host of `caseChain`. -/
def caseResolve (z : ZoneConfig) : Except GoError Str :=
  .ok ("Whois Server: ".toList ++ caseNext z.Host)

/-- A chain of pairwise distinct hosts, also up to case: `b`, `bb`, `bbb`, and
so on. -/
def plainChain (i : Nat) : Str := List.replicate (i + 1) 'b'

/-- Every server answers with a referral to its own host name with one more
letter. -/
def plainResolve (z : ZoneConfig) : Except GoError Str :=
  .ok ("Whois Server: ".toList ++ 'b' :: z.Host)

/-! ## Lemmas on strings -/

theorem len_cons (c : Char) (s : Str) : len (c :: s) = c.utf8Size + len s := by
  simp [len]

theorem len_eq_zero_iff (s : Str) : len s = 0 ↔ s = [] := by
  cases s with
  | nil => simp [len]
  | cons c t =>
    have := Char.utf8Size_pos c
    simp [len_cons]
    omega

theorem len_append (s t : Str) : len (s ++ t) = len s + len t := by
  simp [len]

theorem Split_ne_nil (s : Str) (sep : Char) : Split s sep ≠ [] := by
  cases s with
  | nil => simp [Split]
  | cons c t => by_cases h : c = sep <;> simp [Split, h]

/-- Every character of a string is the separator or lies in one of the pieces. -/
theorem mem_Split_cover (sep : Char) (s : Str) :
    ∀ c ∈ s, c = sep ∨ ∃ l ∈ Split s sep, c ∈ l := by
  induction s with
  | nil => intro c hc; cases hc
  | cons a t ih =>
    intro c hc
    have hne := Split_ne_nil t sep
    obtain ⟨l0, ls, hls⟩ : ∃ l0 ls, Split t sep = l0 :: ls := by
      cases h : Split t sep with
      | nil => exact absurd h hne
      | cons l0 ls => exact ⟨l0, ls, rfl⟩
    by_cases has : a = sep
    · rcases List.mem_cons.1 hc with rfl | hct
      · exact Or.inl has
      · rcases ih c hct with h | ⟨l, hl, hcl⟩
        · exact Or.inl h
        · exact Or.inr ⟨l, by simp [Split, has, hl], hcl⟩
    · rcases List.mem_cons.1 hc with rfl | hct
      · exact Or.inr ⟨c :: l0, by simp [Split, has, hls], by simp⟩
      · rcases ih c hct with h | ⟨l, hl, hcl⟩
        · exact Or.inl h
        · rw [hls] at hl
          rcases List.mem_cons.1 hl with rfl | hl2
          · exact Or.inr ⟨a :: l, by simp [Split, has, hls], by simp [hcl]⟩
          · exact Or.inr ⟨l, by simp [Split, has, hls, hl2], hcl⟩

theorem labelChar_iff (c : Char) : labelChar c = true ↔ InAlphabet c := by
  simp [labelChar, InAlphabet, or_assoc]

theorem labelOK_iff (label : Str) : labelOK label = true ↔ LabelRules label := by
  unfold labelOK LabelRules
  split_ifs with h1 h2
  · simp only [Bool.or_eq_true, beq_iff_eq, decide_eq_true_eq, len_eq_zero_iff] at h1
    constructor
    · intro h; cases h
    · rintro ⟨hne, h63, _⟩
      rcases h1 with h | h
      · exact absurd h hne
      · omega
  · simp only [Bool.or_eq_true, beq_iff_eq] at h2
    constructor
    · intro h; cases h
    · rintro ⟨_, _, hh, hl, _⟩
      rcases h2 with h | h
      · exact absurd h hh
      · exact absurd h hl
  · simp only [Bool.or_eq_true, beq_iff_eq, decide_eq_true_eq, len_eq_zero_iff, not_or] at h1 h2
    simp only [List.all_eq_true, labelChar_iff]
    constructor
    · intro h
      exact ⟨h1.1, by omega, h2.1, h2.2, h⟩
    · intro h
      exact h.2.2.2.2

/-- What `IsValid` computes, read off its branches. -/
theorem IsValid_iff (L : Lib) (s : Str) :
    IsValid L s = true ↔
      TrimSpace s ≠ [] ∧ len (TrimSpace s) ≤ 253 ∧
        ∃ a, L.ToASCII (TrimSpace s) = some a ∧ DomainRules a := by
  unfold IsValid DomainRules
  simp only []
  split_ifs with h1
  · simp only [Bool.or_eq_true, beq_iff_eq, decide_eq_true_eq] at h1
    constructor
    · intro h; cases h
    · rintro ⟨hne, h253, _⟩
      rcases h1 with h | h
      · exact absurd h hne
      · omega
  · simp only [Bool.or_eq_true, beq_iff_eq, decide_eq_true_eq, not_or] at h1
    cases hA : L.ToASCII (TrimSpace s) with
    | none => simp
    | some a =>
      simp only []
      split_ifs with h3 h4
      · simp only [decide_eq_true_eq] at h3
        constructor
        · intro h; cases h
        · rintro ⟨_, _, a2, ha2, h, _⟩
          cases ha2; omega
      · simp only [decide_eq_true_eq] at h4
        constructor
        · intro h; cases h
        · rintro ⟨_, _, a2, ha2, _, h, _⟩
          cases ha2; omega
      · simp only [decide_eq_true_eq] at h3 h4
        simp only [List.all_eq_true, labelOK_iff]
        constructor
        · intro h
          exact ⟨h1.1, by omega, a, rfl, by omega, by omega, h⟩
        · rintro ⟨_, _, a2, ha2, _, _, h⟩
          cases ha2
          exact h

theorem dropWhile_eq_self_of_all {α : Type} (p : α → Bool) (l : List α)
    (h : ∀ x ∈ l, p x = false) : l.dropWhile p = l := by
  cases l with
  | nil => rfl
  | cons a t => simp [List.dropWhile, h a (by simp)]

theorem TrimSpace_eq_self (s : Str) (h : ∀ c ∈ s, isSpace c = false) : TrimSpace s = s := by
  unfold TrimSpace List.rdropWhile
  rw [dropWhile_eq_self_of_all isSpace s h,
    dropWhile_eq_self_of_all isSpace s.reverse (by simpa using h)]
  simp

/-- The code points of `[a-z0-9-]` and of the dot. -/
theorem toNat_of_InAlphabet (c : Char) (h : InAlphabet c ∨ c = '.') :
    (97 ≤ c.toNat ∧ c.toNat ≤ 122) ∨ (45 ≤ c.toNat ∧ c.toNat ≤ 57) := by
  rcases h with (⟨h1, h2⟩ | ⟨h1, h2⟩ | rfl) | rfl
  · have h1n : 'a'.toNat ≤ c.toNat := h1
    have h2n : c.toNat ≤ 'z'.toNat := h2
    exact Or.inl ⟨h1n, h2n⟩
  · have h1n : '0'.toNat ≤ c.toNat := h1
    have h2n : c.toNat ≤ '9'.toNat := h2
    have e0 : '0'.toNat = 48 := by decide
    have e9 : '9'.toNat = 57 := by decide
    exact Or.inr ⟨by omega, by omega⟩
  · exact Or.inr (by decide)
  · exact Or.inr (by decide)

theorem isSpace_ofNat (n : Nat) (h : (97 ≤ n ∧ n ≤ 122) ∨ (45 ≤ n ∧ n ≤ 57)) :
    isSpace (Char.ofNat n) = false := by
  rcases h with ⟨h1, h2⟩ | ⟨h1, h2⟩ <;> interval_cases n <;> decide

theorem asciiLower_ofNat (n : Nat) (h : (97 ≤ n ∧ n ≤ 122) ∨ (45 ≤ n ∧ n ≤ 57)) :
    asciiLower (Char.ofNat n) = Char.ofNat n := by
  rcases h with ⟨h1, h2⟩ | ⟨h1, h2⟩ <;> interval_cases n <;> decide

theorem isSpace_of_InAlphabet (c : Char) (h : InAlphabet c ∨ c = '.') : isSpace c = false := by
  have := isSpace_ofNat c.toNat (toNat_of_InAlphabet c h)
  rwa [Char.ofNat_toNat] at this

theorem asciiLower_of_InAlphabet (c : Char) (h : InAlphabet c ∨ c = '.') : asciiLower c = c := by
  have := asciiLower_ofNat c.toNat (toNat_of_InAlphabet c h)
  rwa [Char.ofNat_toNat] at this

/-- Every character of a legal domain string is in `[a-z0-9-]` or is a dot. -/
theorem DomainRules_chars (s : Str) (h : DomainRules s) : ∀ c ∈ s, InAlphabet c ∨ c = '.' := by
  intro c hc
  rcases mem_Split_cover '.' s c hc with h1 | ⟨l, hl, hcl⟩
  · exact Or.inr h1
  · exact Or.inl ((h.2.2 l hl).2.2.2.2 c hcl)

theorem DomainRules_ne_nil (s : Str) (h : DomainRules s) : s ≠ [] := by
  intro hs
  subst hs
  have := h.2.1
  simp [Split] at this

theorem TrimSpace_of_DomainRules (s : Str) (h : DomainRules s) : TrimSpace s = s :=
  TrimSpace_eq_self s fun c hc => isSpace_of_InAlphabet c (DomainRules_chars s h c hc)

/-- A legal domain string left unchanged by the Punycode conversion passes every
check of `IsValid`. -/
theorem IsValid_of_rules (L : Lib) (s : Str) (hid : L.ToASCII s = some s)
    (hr : DomainRules s) : IsValid L s = true := by
  have ht := TrimSpace_of_DomainRules s hr
  rw [IsValid_iff, ht]
  exact ⟨DomainRules_ne_nil s hr, hr.1, s, hid, hr⟩

/-- The legal domain string behind an accepted string, where the Punycode
conversion is the identity. -/
theorem rules_of_IsValid (L : Lib) (s a : Str) (h : IsValid L s = true)
    (hid : L.ToASCII (TrimSpace s) = some a) : TrimSpace s ≠ [] ∧ DomainRules a := by
  obtain ⟨h1, _, a2, ha2, hr⟩ := (IsValid_iff L s).1 h
  rw [hid] at ha2
  cases ha2
  exact ⟨h1, hr⟩

/-! ## Validation (C1, C2) -/

/-- C1, as written, fails: `IsValid` trims white space before it checks, so it
accepts the ASCII string `" example.com"`, whose first label holds a space. -/
theorem IsValid_accepts_leading_space :
    isASCII " example.com".toList = true ∧
      IsValid sampleLib " example.com".toList = true ∧
      ¬ DomainRules " example.com".toList := by
  decide

/-- C1, amended: if `IsValid s` returns true then `TrimSpace s` is non-empty and
at most 253 bytes, and the Punycode conversion of `TrimSpace s` succeeds with a
result that is at most 253 bytes, has at least two labels, each non-empty, at
most 63 bytes, without a hyphen at either end and over `[a-z0-9-]`; where the
conversion is the identity this is `TrimSpace s` itself. -/
theorem IsValid_sound (L : Lib) (s : Str) (h : IsValid L s = true) :
    TrimSpace s ≠ [] ∧ len (TrimSpace s) ≤ 253 ∧
      (∃ a, L.ToASCII (TrimSpace s) = some a ∧ DomainRules a) ∧
      (L.ToASCII (TrimSpace s) = some (TrimSpace s) → DomainRules (TrimSpace s)) := by
  obtain ⟨h1, h2, a, ha, hr⟩ := (IsValid_iff L s).1 h
  refine ⟨h1, h2, ⟨a, ha, hr⟩, ?_⟩
  intro hid
  rw [hid] at ha
  cases ha
  exact hr

/-- Witness of `IsValid_sound` (C1), at `" example.com"`. -/
theorem IsValid_sound_witness :
    IsValid sampleLib " example.com".toList = true ∧
      (TrimSpace " example.com".toList ≠ [] ∧ len (TrimSpace " example.com".toList) ≤ 253 ∧
        (∃ a, sampleLib.ToASCII (TrimSpace " example.com".toList) = some a ∧ DomainRules a) ∧
        (sampleLib.ToASCII (TrimSpace " example.com".toList) =
            some (TrimSpace " example.com".toList) →
          DomainRules (TrimSpace " example.com".toList))) :=
  ⟨by decide, IsValid_sound sampleLib " example.com".toList (by decide)⟩

/-- C2: a string that is at most 253 bytes, has at least two labels, each of 1 to
63 bytes over `[a-z0-9-]` with no hyphen at either end, and on which the
Punycode conversion is the identity (as on every ASCII string with no label
beginning with `xn--`), is accepted by `IsValid`. -/
theorem IsValid_complete (L : Lib) (s : Str) (hid : L.ToASCII s = some s)
    (hr : DomainRules s) : IsValid L s = true := by
  have hchars : ∀ c ∈ s, isSpace c = false := fun c hc =>
    isSpace_of_InAlphabet c (DomainRules_chars s hr c hc)
  have ht : TrimSpace s = s := TrimSpace_eq_self s hchars
  have hne : s ≠ [] := DomainRules_ne_nil s hr
  rw [IsValid_iff, ht]
  exact ⟨hne, hr.1, s, hid, hr⟩

/-- Witness of `IsValid_complete` (C2), at `"example.com"`. -/
theorem IsValid_complete_witness :
    sampleLib.ToASCII "example.com".toList = some "example.com".toList ∧
      DomainRules "example.com".toList ∧ IsValid sampleLib "example.com".toList = true :=
  ⟨rfl, by decide, IsValid_complete sampleLib "example.com".toList rfl (by decide)⟩

/-! ## The server directory (C3) -/

theorem lookup_eq_none_of_not_mem (l : List (Str × ZoneConfig)) (k : Str)
    (h : ∀ z, (k, z) ∉ l) : l.lookup k = none := by
  induction l with
  | nil => rfl
  | cons kv t ih =>
    obtain ⟨k2, z2⟩ := kv
    have hne : k ≠ k2 := by
      intro e
      exact h z2 (by simp [e])
    have ht : ∀ z, (k, z) ∉ t := fun z hz => h z (List.mem_cons_of_mem _ hz)
    have hb : (k == k2) = false := by simpa using hne
    simp only [List.lookup, hb]
    exact ih ht

theorem mem_of_lookup_eq_some (l : List (Str × ZoneConfig)) (k : Str) (z : ZoneConfig)
    (h : l.lookup k = some z) : (k, z) ∈ l := by
  induction l with
  | nil => simp [List.lookup] at h
  | cons kv t ih =>
    obtain ⟨k2, z2⟩ := kv
    by_cases e : k = k2
    · subst e
      simp [List.lookup] at h
      simp [h]
    · have hb : (k == k2) = false := by simpa using e
      simp only [List.lookup, hb] at h
      exact List.mem_cons_of_mem _ (ih h)

theorem lookup_eq_some_of_mem (l : List (Str × ZoneConfig)) (k : Str) (z : ZoneConfig)
    (nd : (l.map Prod.fst).Nodup) (h : (k, z) ∈ l) : l.lookup k = some z := by
  induction l with
  | nil => cases h
  | cons kv t ih =>
    obtain ⟨k2, z2⟩ := kv
    simp only [List.map_cons, List.nodup_cons, List.mem_map, not_exists, not_and] at nd
    rcases List.mem_cons.1 h with e | ht
    · cases e
      simp [List.lookup]
    · have hne : k ≠ k2 := by
        intro e
        subst e
        exact nd.1 (k, z) ht rfl
      have hb : (k == k2) = false := by simpa using hne
      simp only [List.lookup, hb]
      exact ih nd.2 ht

/-- C3: `GetServer` fails with `ErrInvalidDomain` when the TLD is empty, whatever
the directory holds; fails with `ErrTLDNotSupported` when the TLD is non-empty
and no key of the directory equals it; and otherwise returns an entry stored
under exactly that key, which under the unique keys of a Go map is the stored
entry, with its `Host` and its `Query`.  A failure carries no zone. -/
theorem GetServer_spec (p : Provider) (d : Domain) :
    (d.TLD = [] → p.GetServer d = .error .ErrInvalidDomain) ∧
    (d.TLD ≠ [] → (∀ z, (d.TLD, z) ∉ p.tldServers) →
      p.GetServer d = .error .ErrTLDNotSupported) ∧
    (d.TLD ≠ [] → (∃ z, (d.TLD, z) ∈ p.tldServers) →
      ∃ z, (d.TLD, z) ∈ p.tldServers ∧ p.GetServer d = .ok z) ∧
    (d.TLD ≠ [] → (p.tldServers.map Prod.fst).Nodup → ∀ z, (d.TLD, z) ∈ p.tldServers →
      ∃ r, p.GetServer d = .ok r ∧ r.Host = z.Host ∧ r.Query = z.Query) := by
  refine ⟨?_, ?_, ?_, ?_⟩
  · intro h
    simp [Provider.GetServer, h]
  · intro h hno
    simp [Provider.GetServer, h, lookup_eq_none_of_not_mem _ _ hno]
  · rintro h ⟨z, hz⟩
    cases hl : p.tldServers.lookup d.TLD with
    | none =>
      exfalso
      have : ∀ kv ∈ p.tldServers, kv.1 ≠ d.TLD := by
        intro kv hkv e
        have := List.lookup_eq_none_iff.1 hl kv hkv
        simp [e] at this
      exact this (d.TLD, z) hz rfl
    | some r =>
      exact ⟨r, mem_of_lookup_eq_some _ _ _ hl, by simp [Provider.GetServer, h, hl]⟩
  · intro h nd z hz
    exact ⟨z, by simp [Provider.GetServer, h, lookup_eq_some_of_mem _ _ _ nd hz], rfl, rfl⟩

/-- Witness of `GetServer_spec` (C3), on a directory with an entry for the empty
key and an entry for `uk`: an empty TLD is invalid, `co.uk` is not served, and
`uk` gives the stored entry. -/
theorem GetServer_spec_witness :
    (Provider.mk [([], ⟨"whois.iana.org".toList, []⟩),
        ("uk".toList, ⟨"whois.nic.uk".toList, "$addr\r\n".toList⟩)] none).GetServer
        ⟨[], [], [], false, true⟩ = .error .ErrInvalidDomain ∧
    (Provider.mk [([], ⟨"whois.iana.org".toList, []⟩),
        ("uk".toList, ⟨"whois.nic.uk".toList, "$addr\r\n".toList⟩)] none).GetServer
        ⟨"example.co.uk".toList, "example".toList, "co.uk".toList, true, false⟩ =
      .error .ErrTLDNotSupported ∧
    ∃ r, (Provider.mk [([], ⟨"whois.iana.org".toList, []⟩),
        ("uk".toList, ⟨"whois.nic.uk".toList, "$addr\r\n".toList⟩)] none).GetServer
        ⟨"example.uk".toList, "example".toList, "uk".toList, true, false⟩ = .ok r ∧
      r.Host = "whois.nic.uk".toList ∧ r.Query = "$addr\r\n".toList :=
  ⟨(GetServer_spec _ ⟨[], [], [], false, true⟩).1 rfl,
    (GetServer_spec _
      ⟨"example.co.uk".toList, "example".toList, "co.uk".toList, true, false⟩).2.1
      (by decide) (by
        intro z hz
        simp only [List.mem_cons, Prod.mk.injEq, List.mem_singleton, List.not_mem_nil,
          or_false] at hz
        rcases hz with h | h
        · exact absurd h.1 (by decide)
        · exact absurd h.1 (by decide)),
    (GetServer_spec _
      ⟨"example.uk".toList, "example".toList, "uk".toList, true, false⟩).2.2.2
      (by decide) (by decide) ⟨"whois.nic.uk".toList, "$addr\r\n".toList⟩ (by decide)⟩

/-! ## The query encoder (C4) -/

theorem intercalate_singleton (sep x : Str) : List.intercalate sep [x] = x := by
  simp [List.intercalate, List.intersperse]

theorem intercalate_cons_cons (sep x y : Str) (ys : List Str) :
    List.intercalate sep (x :: y :: ys) = x ++ sep ++ List.intercalate sep (y :: ys) := by
  simp [List.intercalate, List.intersperse]

theorem intercalate_cons_head (sep : Str) (c : Char) (x : Str) (xs : List Str) :
    List.intercalate sep ((c :: x) :: xs) = c :: List.intercalate sep (x :: xs) := by
  cases xs with
  | nil => simp [intercalate_singleton]
  | cons y ys => simp [intercalate_cons_cons]

/-- Passing over the rest of a matched occurrence. -/
theorem replaceFrom_skip (old new mid rest : Str) :
    replaceFrom old new mid.length (mid ++ rest) = replaceFrom old new 0 rest := by
  induction mid with
  | nil => rfl
  | cons c t ih => simpa [replaceFrom] using ih

/-- The scan of `strings.ReplaceAll` cuts the text at the occurrences of `old` it
replaces: the text is the pieces joined by `old`, no piece holds an occurrence
of `old`, and the result is the same pieces joined by `new`. -/
theorem replaceFrom_pieces (old : Str) (hold : old ≠ []) :
    ∀ (n : Nat) (s : Str), s.length ≤ n →
      ∃ pieces : List Str, pieces ≠ [] ∧ s = List.intercalate old pieces ∧
        (∀ p ∈ pieces, ¬ old <:+: p) ∧
        ∀ new, replaceFrom old new 0 s = List.intercalate new pieces := by
  intro n
  induction n with
  | zero =>
    intro s hs
    have : s = [] := List.length_eq_zero.1 (Nat.le_zero.1 hs)
    subst this
    refine ⟨[[]], by simp, by simp [intercalate_singleton], ?_, ?_⟩
    · intro p hp
      rw [List.mem_singleton] at hp
      subst hp
      intro h
      exact hold (List.eq_nil_of_infix_nil h)
    · intro new
      simp [replaceFrom, intercalate_singleton]
  | succ n ih =>
    intro s hs
    cases s with
    | nil => exact ih [] (Nat.zero_le _)
    | cons c t =>
      by_cases hp : old.isPrefixOf (c :: t) = true
      · obtain ⟨rest, hrest⟩ := List.isPrefixOf_iff_prefix.1 hp
        obtain ⟨o, os, rfl⟩ := List.exists_cons_of_ne_nil hold
        have hc : o = c ∧ os ++ rest = t := by
          simpa using hrest
        obtain ⟨rfl, rfl⟩ := hc
        have hlen : rest.length ≤ n := by
          simp only [List.length_cons, List.length_append] at hs
          omega
        obtain ⟨pieces, hne, hjoin, hfree, hrep⟩ := ih rest hlen
        obtain ⟨q, qs, rfl⟩ := List.exists_cons_of_ne_nil hne
        refine ⟨[] :: q :: qs, by simp, ?_, ?_, ?_⟩
        · rw [intercalate_cons_cons, ← hjoin]
          simp
        · intro p hp2
          rcases List.mem_cons.1 hp2 with rfl | hp3
          · intro h
            exact hold (List.eq_nil_of_infix_nil h)
          · exact hfree p hp3
        · intro new
          rw [intercalate_cons_cons, ← hrep new]
          simp only [replaceFrom, hp, if_true, List.length_cons, Nat.add_sub_cancel,
            List.nil_append]
          rw [replaceFrom_skip]
      · have hlen : t.length ≤ n := by
          simp only [List.length_cons] at hs
          omega
        obtain ⟨pieces, hne, hjoin, hfree, hrep⟩ := ih t hlen
        obtain ⟨q, qs, rfl⟩ := List.exists_cons_of_ne_nil hne
        refine ⟨(c :: q) :: qs, by simp, ?_, ?_, ?_⟩
        · rw [intercalate_cons_head, ← hjoin]
        · intro p hp2
          rcases List.mem_cons.1 hp2 with rfl | hp3
          · intro hin
            rcases List.infix_cons_iff.1 hin with hpre | hin2
            · apply hp
              apply List.isPrefixOf_iff_prefix.2
              have hq : c :: q <+: c :: t := by
                rw [hjoin]
                cases qs with
                | nil => simp [intercalate_singleton]
                | cons y ys =>
                  rw [intercalate_cons_cons, List.append_assoc]
                  exact (List.prefix_cons_inj c).2 (List.prefix_append _ _)
              exact hpre.trans hq
            · exact hfree q (by simp) hin2
          · exact hfree p (List.mem_cons_of_mem _ hp3)
        · intro new
          rw [intercalate_cons_head, ← hrep new]
          simp [replaceFrom, hp]

/-- The placeholder does not overlap itself: between two pieces without the
placeholder, the first placeholder of a text sits at one place only. -/
theorem first_piece_le (p q X Y : Str) (hq : ¬ "$addr".toList <:+: q)
    (h : p ++ ("$addr".toList ++ X) = q ++ ("$addr".toList ++ Y)) (w : Str)
    (hw : q = p ++ w) : w = [] := by
  subst hw
  rw [List.append_assoc, List.append_cancel_left_eq] at h
  rcases List.append_eq_append_iff.1 h with ⟨u, hu, _⟩ | ⟨u, hu, hu2⟩
  · exact absurd ⟨p, u, by rw [hu, List.append_assoc]⟩ hq
  · cases w with
    | nil => rfl
    | cons w0 w2 =>
      exfalso
      cases u with
      | nil =>
        rw [List.append_nil] at hu
        exact hq ⟨p, [], by rw [← hu, List.append_nil]⟩
      | cons u0 u2 =>
        have h0 : u0 = '$' := by
          have := congrArg List.head? hu2
          simpa using this.symm
        have hmem : u0 ∈ "addr".toList := by
          have e : "$addr".toList = '$' :: "addr".toList := rfl
          rw [e] at hu
          have ht := (List.cons.inj hu).2
          rw [ht]
          simp
        rw [h0] at hmem
        exact absurd hmem (by decide)

theorem first_piece_eq (p q X Y : Str) (hp : ¬ "$addr".toList <:+: p)
    (hq : ¬ "$addr".toList <:+: q)
    (h : p ++ ("$addr".toList ++ X) = q ++ ("$addr".toList ++ Y)) : p = q := by
  rcases List.append_eq_append_iff.1 h with ⟨w, hw, _⟩ | ⟨w, hw, _⟩
  · have := first_piece_le p q X Y hq h w hw
    rw [hw, this, List.append_nil]
  · have := first_piece_le q p Y X hp h.symm w hw
    rw [hw, this, List.append_nil]

/-- A text is cut into pieces without the placeholder in one way only. -/
theorem pieces_unique :
    ∀ (P Q : List Str), P ≠ [] → Q ≠ [] →
      List.intercalate "$addr".toList P = List.intercalate "$addr".toList Q →
      (∀ p ∈ P, ¬ "$addr".toList <:+: p) → (∀ q ∈ Q, ¬ "$addr".toList <:+: q) → P = Q := by
  intro P
  induction P with
  | nil => intro Q h; exact absurd rfl h
  | cons p ps ih =>
    intro Q _ hQ h hP hQf
    obtain ⟨q, qs, rfl⟩ := List.exists_cons_of_ne_nil hQ
    cases ps with
    | nil =>
      cases qs with
      | nil => simpa [intercalate_singleton] using h
      | cons q2 qs2 =>
        exfalso
        rw [intercalate_singleton, intercalate_cons_cons] at h
        exact hP p (by simp) (h ▸ List.infix_append _ _ _)
    | cons p2 ps2 =>
      cases qs with
      | nil =>
        exfalso
        rw [intercalate_singleton, intercalate_cons_cons] at h
        exact hQf q (by simp) (h ▸ List.infix_append _ _ _)
      | cons q2 qs2 =>
        rw [intercalate_cons_cons, intercalate_cons_cons, List.append_assoc,
          List.append_assoc] at h
        have hpq : p = q := first_piece_eq p q _ _ (hP p (by simp)) (hQf q (by simp)) h
        subst hpq
        rw [List.append_cancel_left_eq, List.append_cancel_left_eq] at h
        have := ih (q2 :: qs2) (by simp) (by simp) h
          (fun x hx => hP x (List.mem_cons_of_mem _ hx))
          (fun x hx => hQf x (List.mem_cons_of_mem _ hx))
        rw [this]

/-- C4: without a template the query is the domain followed by `"\r\n"`; with a
template it is the template with every occurrence of `$addr` replaced by the
domain and everything else kept: the template is cut, in the one possible way,
into pieces joined by `$addr` none of which holds `$addr`, and the query is the
same pieces joined by the domain. -/
theorem buildQuery_spec (zone : ZoneConfig) :
    (zone.Query = [] → ∀ d, buildQuery zone d = d ++ "\r\n".toList) ∧
    (zone.Query ≠ [] →
      ∃ pieces : List Str, zone.Query = List.intercalate "$addr".toList pieces ∧
        (∀ p ∈ pieces, ¬ "$addr".toList <:+: p) ∧
        (∀ d, buildQuery zone d = List.intercalate d pieces) ∧
        ∀ pieces2 : List Str, zone.Query = List.intercalate "$addr".toList pieces2 →
          (∀ p ∈ pieces2, ¬ "$addr".toList <:+: p) → pieces2 = pieces) := by
  constructor
  · intro h d
    simp [buildQuery, h, ReplaceAll, replaceFrom]
  · intro h
    obtain ⟨pieces, hne, hjoin, hfree, hrep⟩ :=
      replaceFrom_pieces "$addr".toList (by decide) zone.Query.length zone.Query (Nat.le_refl _)
    refine ⟨pieces, hjoin, hfree, ?_, ?_⟩
    · intro d
      have hq : (zone.Query == []) = false := by simpa using h
      simp only [buildQuery, hq, ReplaceAll]
      exact hrep d
    · intro pieces2 hjoin2 hfree2
      have hne2 : pieces2 ≠ [] := by
        intro e
        subst e
        exact h (by simpa [List.intercalate] using hjoin2)
      exact pieces_unique pieces2 pieces hne2 hne (hjoin2.symm.trans hjoin) hfree2 hfree

/-- Witness of `buildQuery_spec` (C4): the default query, and a template with two
occurrences of the placeholder. -/
theorem buildQuery_spec_witness :
    buildQuery ⟨"whois.nic.io".toList, []⟩ "example.io".toList = "example.io\r\n".toList ∧
    ∃ pieces : List Str,
      "-T dn $addr,$addr\r\n".toList = List.intercalate "$addr".toList pieces ∧
        (∀ p ∈ pieces, ¬ "$addr".toList <:+: p) ∧
        (∀ d, buildQuery ⟨"whois.denic.de".toList, "-T dn $addr,$addr\r\n".toList⟩ d =
          List.intercalate d pieces) ∧
        ∀ pieces2 : List Str,
          "-T dn $addr,$addr\r\n".toList = List.intercalate "$addr".toList pieces2 →
          (∀ p ∈ pieces2, ¬ "$addr".toList <:+: p) → pieces2 = pieces :=
  ⟨(buildQuery_spec ⟨"whois.nic.io".toList, []⟩).1 rfl "example.io".toList,
    (buildQuery_spec ⟨"whois.denic.de".toList, "-T dn $addr,$addr\r\n".toList⟩).2 (by decide)⟩

/-! ## Referral following (C5 to C8) -/

theorem wrapInt_of_range (x : Int) (h1 : 0 ≤ x) (h2 : x ≤ maxInt) : wrapInt x = x := by
  unfold maxInt at h2
  unfold wrapInt
  omega

theorem wrapInt_le (x : Int) : wrapInt x ≤ maxInt := by
  unfold wrapInt maxInt
  omega

/-- Every call of `Resolve` in a run either let the loop go on or ended the run. -/
theorem countedLoop_trace (L : Lib) (resolve : ZoneConfig → Except GoError Str) :
    ∀ (n : Nat) (visited : List Str) (server : ZoneConfig) (calls : List ZoneConfig),
      (∀ z ∈ calls, ∃ z2, Follows L resolve z z2) →
      ∀ z ∈ (countedLoop L resolve n visited server calls).Calls,
        (∃ z2, Follows L resolve z z2) ∨
          EndsAt L resolve (countedLoop L resolve n visited server calls) z := by
  intro n
  induction n with
  | zero =>
    intro visited server calls hc z hz
    exact Or.inl (hc z hz)
  | succ n ih =>
    intro visited server calls hc z hz
    unfold countedLoop at hz ⊢
    by_cases hv : server.Host ∈ visited
    · simp only [hv, if_true] at hz ⊢
      exact Or.inl (hc z hz)
    · simp only [hv, if_false] at hz ⊢
      cases hr : resolve server with
      | error e =>
        simp only [hr] at hz ⊢
        rcases List.mem_append.1 hz with h | h
        · exact Or.inl (hc z h)
        · rw [List.mem_singleton] at h
          subst h
          exact Or.inr ⟨by simp, rfl, Or.inr ⟨e, hr, rfl, rfl⟩⟩
      | ok raw =>
        simp only [hr] at hz ⊢
        by_cases ht : (FindReferralServer raw == [] ||
            EqualFold L (FindReferralServer raw) server.Host) = true
        · simp only [ht, if_true] at hz ⊢
          rcases List.mem_append.1 hz with h | h
          · exact Or.inl (hc z h)
          · rw [List.mem_singleton] at h
            subst h
            refine Or.inr ⟨by simp, rfl, Or.inl ⟨raw, hr, ?_, rfl, rfl⟩⟩
            simpa using ht
        · simp only [ht, if_false] at hz ⊢
          apply ih _ _ _ _ z hz
          intro y hy
          rcases List.mem_append.1 hy with h | h
          · exact hc y h
          · rw [List.mem_singleton] at h
            subst h
            simp only [Bool.or_eq_true, beq_iff_eq, not_or, Bool.not_eq_true] at ht
            exact ⟨_, raw, hr, ht.1, ht.2, rfl⟩

/-- What `resolveLoop` returns is what the counted loop returns for some number
of iterations. -/
theorem resolveLoop_counted (L : Lib) (maxFollow : Int)
    (resolve : ZoneConfig → Except GoError Str) :
    ∀ (fuel : Nat) (i : Int) (visited : List Str) (server : ZoneConfig)
      (calls : List ZoneConfig) (run : Run),
      resolveLoop L maxFollow resolve fuel i visited server calls = some run →
      ∃ n, run = countedLoop L resolve n visited server calls := by
  intro fuel
  induction fuel with
  | zero =>
    intro i visited server calls run h
    simp [resolveLoop] at h
  | succ fuel ih =>
    intro i visited server calls run h
    rw [resolveLoop] at h
    by_cases hi : i ≤ maxFollow
    · simp only [hi, if_true] at h
      by_cases hv : server.Host ∈ visited
      · simp only [hv, if_true, Option.some.injEq] at h
        exact ⟨0, by rw [countedLoop]; exact h.symm⟩
      · simp only [hv, if_false] at h
        cases hr : resolve server with
        | error e =>
          simp only [hr, Option.some.injEq] at h
          refine ⟨1, ?_⟩
          rw [countedLoop]
          simp only [hv, if_false, hr]
          exact h.symm
        | ok raw =>
          simp only [hr] at h
          by_cases ht : (FindReferralServer raw == [] ||
              EqualFold L (FindReferralServer raw) server.Host) = true
          · simp only [ht, if_true, Option.some.injEq] at h
            refine ⟨1, ?_⟩
            rw [countedLoop]
            simp only [hv, if_false, hr, ht, if_true]
            exact h.symm
          · simp only [ht, if_false] at h
            obtain ⟨n, hn⟩ := ih _ _ _ _ _ h
            refine ⟨n + 1, ?_⟩
            rw [countedLoop]
            simp only [hv, if_false, hr, ht]
            exact hn
    · simp only [hi, if_false, Option.some.injEq] at h
      exact ⟨0, by rw [countedLoop]; exact h.symm⟩

/-- With `maxFollow` below the largest `int`, the loop returns within
`maxFollow + 2 - i` tests of its condition. -/
theorem resolveLoop_returns (L : Lib) (maxFollow : Int)
    (resolve : ZoneConfig → Except GoError Str) (hmax : maxFollow < maxInt) :
    ∀ (fuel : Nat) (i : Int) (visited : List Str) (server : ZoneConfig)
      (calls : List ZoneConfig),
      0 ≤ i → (maxFollow + 1 - i).toNat < fuel →
      ∃ run, resolveLoop L maxFollow resolve fuel i visited server calls = some run := by
  intro fuel
  induction fuel with
  | zero =>
    intro i _ _ _ _ h
    omega
  | succ fuel ih =>
    intro i visited server calls h0 hf
    rw [resolveLoop]
    by_cases hi : i ≤ maxFollow
    · simp only [hi, if_true]
      by_cases hv : server.Host ∈ visited
      · simp only [hv, if_true]
        exact ⟨_, rfl⟩
      · simp only [hv, if_false]
        cases hr : resolve server with
        | error e => exact ⟨_, rfl⟩
        | ok raw =>
          simp only []
          split_ifs
          · exact ⟨_, rfl⟩
          · rw [wrapInt_of_range (i + 1) (by omega) (by omega)]
            exact ih _ _ _ _ (by omega) (by omega)
    · simp only [hi, if_false]
      exact ⟨_, rfl⟩

/-- Along a chain of followed referrals over hosts not yet visited and pairwise
distinct, with the counter within `maxFollow` and short of wrapping, the loop
makes one call of `Resolve` per server, in order. -/
theorem resolveLoop_chain (L : Lib) (maxFollow : Int)
    (resolve : ZoneConfig → Except GoError Str) (s : Nat → ZoneConfig) :
    ∀ (k fuel : Nat) (i : Int) (visited : List Str) (calls : List ZoneConfig),
      (∀ j, j < k → Follows L resolve (s j) (s (j + 1))) →
      (∀ j, j < k → (s j).Host ∉ visited) →
      (∀ a b, a < k → b < k → (s a).Host = (s b).Host → a = b) →
      0 ≤ i → i + (k : Int) ≤ maxInt → (∀ j : Nat, j < k → i + (j : Int) ≤ maxFollow) →
      resolveLoop L maxFollow resolve (fuel + k) i visited (s 0) calls =
        resolveLoop L maxFollow resolve fuel (i + (k : Int))
          (((List.range k).map fun j => (s j).Host).reverse ++ visited) (s k)
          (calls ++ (List.range k).map s) := by
  intro k
  induction k with
  | zero =>
    intro fuel i visited calls _ _ _ _ _ _
    simp
  | succ k ih =>
    intro fuel i visited calls hf hv hd h0 hk hle
    have hk2 : i + (k : Int) + 1 ≤ maxInt := by push_cast at hk; omega
    have e : fuel + (k + 1) = (fuel + 1) + k := by omega
    rw [e, ih (fuel + 1) i visited calls (fun j hj => hf j (by omega))
      (fun j hj => hv j (by omega)) (fun a b ha hb => hd a b (by omega) (by omega)) h0
      (by omega) (fun j hj => hle j (by omega))]
    obtain ⟨raw, hr, hne, hfold, hnext⟩ := hf k (by omega)
    have hnv : (s k).Host ∉
        ((List.range k).map fun j => (s j).Host).reverse ++ visited := by
      intro hmem
      rcases List.mem_append.1 hmem with h | h
      · rw [List.mem_reverse, List.mem_map] at h
        obtain ⟨j, hj, hj2⟩ := h
        rw [List.mem_range] at hj
        have := hd j k (by omega) (by omega) hj2
        omega
      · exact hv k (by omega) h
    have hb : (FindReferralServer raw == [] ||
        EqualFold L (FindReferralServer raw) (s k).Host) = false := by
      simp [hne, hfold]
    have hik : i + (k : Int) ≤ maxFollow := hle k (by omega)
    rw [resolveLoop]
    simp only [hik, if_true, hnv, if_false, hr, hb, Bool.false_eq_true]
    rw [hnext, wrapInt_of_range (i + (k : Int) + 1) (by omega) hk2]
    simp [List.range_succ, add_assoc]

/-- C5: whenever a call of `Resolve` made by `ResolveWithReferrals` returns a
response with no referral, or with a referral to the host just queried up to
case (`strings.EqualFold`), the run returns that response, that host and no
error, and the call is the last one made; the loop, at a host that passes its
two tests and answers so, returns at once, whatever bound it is given; and with
`maxFollow` below the largest `int` the call returns as soon as the bound is
above `maxFollow + 1`. -/
theorem ResolveWithReferrals_terminal (L : Lib) (maxFollow : Int)
    (resolve : ZoneConfig → Except GoError Str) (z : ZoneConfig) (raw : Str)
    (hraw : resolve z = .ok raw)
    (hterm : FindReferralServer raw = [] ∨
      EqualFold L (FindReferralServer raw) z.Host = true) :
    (∀ (server : ZoneConfig) (fuel : Nat) (run : Run),
      ResolveWithReferrals L maxFollow resolve server fuel = some run → z ∈ run.Calls →
      run.Raw = raw ∧ run.Host = z.Host ∧ run.Err = none ∧ run.Calls.getLast? = some z) ∧
    (∀ (fuel : Nat) (i : Int) (visited : List Str) (calls : List ZoneConfig),
      i ≤ maxFollow → z.Host ∉ visited →
      resolveLoop L maxFollow resolve (fuel + 1) i visited z calls =
        some ⟨raw, z.Host, none, calls ++ [z]⟩) ∧
    (maxFollow < maxInt → ∀ (server : ZoneConfig) (fuel : Nat),
      (maxFollow + 1).toNat < fuel →
      ∃ run, ResolveWithReferrals L maxFollow resolve server fuel = some run) := by
  refine ⟨?_, ?_, fun hmax server fuel hfuel =>
    resolveLoop_returns L maxFollow resolve hmax fuel 0 [] server [] (le_refl 0)
      (by simpa using hfuel)⟩
  · intro server fuel run hrun hz
    obtain ⟨n, hn⟩ := resolveLoop_counted L maxFollow resolve fuel 0 [] server [] run hrun
    subst hn
    have key := countedLoop_trace L resolve n [] server []
      (by intro y hy; cases hy) z hz
    rcases key with ⟨z2, raw2, h2, hne, hfold, _⟩ | ⟨hlast, hhost, hend⟩
    · rw [hraw] at h2
      cases h2
      rcases hterm with h | h
      · exact absurd h hne
      · rw [h] at hfold
        cases hfold
    · rcases hend with ⟨raw2, h2, _, hr, he⟩ | ⟨e, h2, _⟩
      · rw [hraw] at h2
        cases h2
        exact ⟨hr, hhost, he, hlast⟩
      · rw [hraw] at h2
        cases h2
  · intro fuel i visited calls hi hv
    have ht : (FindReferralServer raw == [] ||
        EqualFold L (FindReferralServer raw) z.Host) = true := by
      rcases hterm with h | h
      · simp [h]
      · simp [h]
    rw [resolveLoop]
    simp only [hi, if_true, hv, if_false, hraw, ht]

/-- Witness of `ResolveWithReferrals_terminal` (C5): the server `whois.a.net`
answers with a referral to itself, in upper case and with the scheme prefix; and
the server `k.net` answers with a referral to itself written with the Kelvin
sign U+212A, which folds to `k`. -/
theorem ResolveWithReferrals_terminal_witness :
    ResolveWithReferrals sampleLib 10
        (fun _ => .ok "Domain Name: A.NET\nReferralServer: whois://WHOIS.A.NET\r\n".toList)
        ⟨"whois.a.net".toList, []⟩ 1 =
      some ⟨"Domain Name: A.NET\nReferralServer: whois://WHOIS.A.NET\r\n".toList,
        "whois.a.net".toList, none, [⟨"whois.a.net".toList, []⟩]⟩ ∧
    ResolveWithReferrals sampleLib 10 (fun _ => .ok "Whois Server: \u212A.net".toList)
        ⟨"k.net".toList, []⟩ 1 =
      some ⟨"Whois Server: \u212A.net".toList, "k.net".toList, none,
        [⟨"k.net".toList, []⟩]⟩ :=
  ⟨(ResolveWithReferrals_terminal sampleLib 10
      (fun _ => .ok "Domain Name: A.NET\nReferralServer: whois://WHOIS.A.NET\r\n".toList)
      ⟨"whois.a.net".toList, []⟩
      "Domain Name: A.NET\nReferralServer: whois://WHOIS.A.NET\r\n".toList
      rfl (by decide)).2.1 0 0 [] [] (by decide) (by simp),
    (ResolveWithReferrals_terminal sampleLib 10
      (fun _ => .ok "Whois Server: \u212A.net".toList) ⟨"k.net".toList, []⟩
      "Whois Server: \u212A.net".toList rfl (by decide)).2.1 0 0 [] [] (by decide)
      (by simp)⟩

/-- C7: when a chain of `k` followed referrals, over pairwise distinct hosts,
leads to a host already queried in this call, with `k` at most `maxFollow`, the
run makes the `k` calls of the chain and no other, and fails with
`ErrInfinityLoop` and an empty response, as soon as the bound on the loop is
above `k`. -/
theorem ResolveWithReferrals_revisit (L : Lib) (maxFollow : Int) (hint : maxFollow ≤ maxInt)
    (resolve : ZoneConfig → Except GoError Str) (s : Nat → ZoneConfig) (k j : Nat)
    (hf : ∀ i, i < k → Follows L resolve (s i) (s (i + 1)))
    (hd : ∀ i j, i < k → j < k → (s i).Host = (s j).Host → i = j)
    (hj : j < k) (hback : (s k).Host = (s j).Host) (hcap : (k : Int) ≤ maxFollow)
    (fuel : Nat) (hfuel : k < fuel) :
    ResolveWithReferrals L maxFollow resolve (s 0) fuel =
      some ⟨[], (s k).Host, some (.sentinel .ErrInfinityLoop), (List.range k).map s⟩ := by
  obtain ⟨n, hn⟩ : ∃ n, fuel = (n + 1) + k := ⟨fuel - k - 1, by omega⟩
  unfold ResolveWithReferrals
  rw [hn, resolveLoop_chain L maxFollow resolve s k (n + 1) 0 [] [] hf
    (fun i _ h => by cases h) hd (le_refl 0) (by omega) (fun i hi => by omega)]
  have hmem : (s k).Host ∈ ((List.range k).map fun i => (s i).Host).reverse ++ [] := by
    rw [hback]
    simp only [List.append_nil, List.mem_reverse, List.mem_map, List.mem_range]
    exact ⟨j, hj, rfl⟩
  have hik : (0 : Int) + (k : Int) ≤ maxFollow := by omega
  rw [resolveLoop]
  simp only [hik, hmem, if_true, List.nil_append]

/-- Witness of `ResolveWithReferrals_revisit` (C7): A refers to B and B refers to A,
with `maxFollow = 2`. -/
theorem ResolveWithReferrals_revisit_witness :
    ResolveWithReferrals sampleLib 2
        (fun z => if z.Host = "whois.a.net".toList then .ok "Whois Server: whois.b.net".toList
          else .ok "Whois Server: whois.a.net".toList)
        ⟨"whois.a.net".toList, []⟩ 3 =
      some ⟨[], "whois.a.net".toList, some (.sentinel .ErrInfinityLoop),
        [⟨"whois.a.net".toList, []⟩, ⟨"whois.b.net".toList, []⟩]⟩ :=
  ResolveWithReferrals_revisit sampleLib 2 (by decide)
    (fun z => if z.Host = "whois.a.net".toList then .ok "Whois Server: whois.b.net".toList
      else .ok "Whois Server: whois.a.net".toList)
    (fun i => if i % 2 = 0 then ⟨"whois.a.net".toList, []⟩ else ⟨"whois.b.net".toList, []⟩)
    2 0
    (by
      intro i hi
      interval_cases i
      · exact ⟨"Whois Server: whois.b.net".toList, rfl, by decide, by decide, by decide⟩
      · exact ⟨"Whois Server: whois.a.net".toList, rfl, by decide, by decide, by decide⟩)
    (by
      intro i j hi hj
      interval_cases i <;> interval_cases j <;> decide)
    (by decide) rfl (by decide) 3 (by decide)

/-- C8: a failing call of `Resolve` is the last call of the run; the run returns
an empty response, the host of the failing call, and an error for which
`errors.Is(err, ErrWhoisQueryFailed)` holds and whose message is the message of
`ErrWhoisQueryFailed`, a colon, and the message of the underlying error; the
loop, at a host that passes its two tests and on which `Resolve` fails, returns
so at once, whatever bound it is given; and with `maxFollow` below the largest
`int` the call returns as soon as the bound is above `maxFollow + 1`. -/
theorem ResolveWithReferrals_failure (L : Lib) (maxFollow : Int)
    (resolve : ZoneConfig → Except GoError Str) (z : ZoneConfig) (e : GoError)
    (he : resolve z = .error e) :
    (∀ (server : ZoneConfig) (fuel : Nat) (run : Run),
      ResolveWithReferrals L maxFollow resolve server fuel = some run → z ∈ run.Calls →
      run.Raw = [] ∧ run.Host = z.Host ∧
        (∃ err, run.Err = some err ∧ err.Is .ErrWhoisQueryFailed = true ∧
          err.Error = "resolver: whois query failed: ".toList ++ e.Error) ∧
        run.Calls.getLast? = some z) ∧
    (∀ (fuel : Nat) (i : Int) (visited : List Str) (calls : List ZoneConfig),
      i ≤ maxFollow → z.Host ∉ visited →
      resolveLoop L maxFollow resolve (fuel + 1) i visited z calls =
        some ⟨[], z.Host, some (.errorf .ErrWhoisQueryFailed e.Error), calls ++ [z]⟩) ∧
    (maxFollow < maxInt → ∀ (server : ZoneConfig) (fuel : Nat),
      (maxFollow + 1).toNat < fuel →
      ∃ run, ResolveWithReferrals L maxFollow resolve server fuel = some run) := by
  refine ⟨?_, ?_, fun hmax server fuel hfuel =>
    resolveLoop_returns L maxFollow resolve hmax fuel 0 [] server [] (le_refl 0)
      (by simpa using hfuel)⟩
  · intro server fuel run hrun hz
    obtain ⟨n, hn⟩ := resolveLoop_counted L maxFollow resolve fuel 0 [] server [] run hrun
    subst hn
    have key := countedLoop_trace L resolve n [] server []
      (by intro y hy; cases hy) z hz
    rcases key with ⟨z2, raw2, h2, _⟩ | ⟨hlast, hhost, hend⟩
    · rw [he] at h2
      cases h2
    · rcases hend with ⟨raw2, h2, _⟩ | ⟨e2, h2, hr, herr⟩
      · rw [he] at h2
        cases h2
      · rw [he] at h2
        cases h2
        exact ⟨hr, hhost, ⟨_, herr, rfl, rfl⟩, hlast⟩
  · intro fuel i visited calls hi hv
    rw [resolveLoop]
    simp only [hi, if_true, hv, if_false, he]

/-- Witness of `ResolveWithReferrals_failure` (C8): `whois.a.net` refers to
`whois.b.net`, which cannot be reached. -/
theorem ResolveWithReferrals_failure_witness :
    ResolveWithReferrals sampleLib 10
        (fun z => if z.Host = "whois.a.net".toList then .ok "Whois Server: whois.b.net".toList
          else .error (.errorf .ErrConnectionFailed "dial tcp: i/o timeout".toList))
        ⟨"whois.a.net".toList, []⟩ 2 =
      some ⟨[], "whois.b.net".toList,
        some (.errorf .ErrWhoisQueryFailed
          "resolver: failed to connect: dial tcp: i/o timeout".toList),
        [⟨"whois.a.net".toList, []⟩, ⟨"whois.b.net".toList, []⟩]⟩ ∧
      (∃ err, (some (GoError.errorf .ErrWhoisQueryFailed
          "resolver: failed to connect: dial tcp: i/o timeout".toList)) = some err ∧
        err.Is .ErrWhoisQueryFailed = true ∧
        err.Error = "resolver: whois query failed: ".toList ++
          (GoError.errorf .ErrConnectionFailed "dial tcp: i/o timeout".toList).Error) :=
  ⟨by decide,
    ((ResolveWithReferrals_failure sampleLib 10
      (fun z => if z.Host = "whois.a.net".toList then .ok "Whois Server: whois.b.net".toList
        else .error (.errorf .ErrConnectionFailed "dial tcp: i/o timeout".toList))
      ⟨"whois.b.net".toList, []⟩
      (.errorf .ErrConnectionFailed "dial tcp: i/o timeout".toList) rfl).1
      ⟨"whois.a.net".toList, []⟩ 2
      ⟨[], "whois.b.net".toList,
        some (.errorf .ErrWhoisQueryFailed
          "resolver: failed to connect: dial tcp: i/o timeout".toList),
        [⟨"whois.a.net".toList, []⟩, ⟨"whois.b.net".toList, []⟩]⟩
      (by decide) (by decide)).2.2.1⟩

/-! ## The attempt bound (C6) -/

theorem reLit_self (p t : Str) : reLit p (p ++ t) = some t := by
  induction p with
  | nil => cases t <;> rfl
  | cons c ps ih => simp [reLit, reFold, ih]

theorem reStarCap_run (x : Char → Bool) (k : Str → Str → Option Str) (v : Str) :
    ∀ (u acc : Str), (∀ c ∈ u, x c = true) → k (acc ++ u) [] = some v →
      reStarCap x k acc u = some v := by
  intro u
  induction u with
  | nil =>
    intro acc _ hk
    simpa [reStarCap] using hk
  | cons c t ih =>
    intro acc hx hk
    have hc : x c = true := hx c (by simp)
    have := ih (acc ++ [c]) (fun d hd => hx d (List.mem_cons_of_mem _ hd)) (by simpa using hk)
    simp [reStarCap, hc, this]

/-- A non-empty run without `\s` up to the end of the text is what the part
`([^\s]+)\s*$` captures. -/
theorem reHost_run (t : Str) (hne : t ≠ []) (hx : ∀ c ∈ t, reSpace c = false) :
    reHost t = some t := by
  obtain ⟨c, u, rfl⟩ := List.exists_cons_of_ne_nil hne
  have hc : reSpace c = false := hx c (by simp)
  unfold reHost
  simp only [rePlusCap, hc, Bool.not_false, if_true]
  apply reStarCap_run
  · intro d hd
    simp [hx d (List.mem_cons_of_mem _ hd)]
  · simp [reStar, reEnd]

theorem isSpace_of_reSpace (c : Char) (h : reSpace c = true) : isSpace c = true := by
  simp only [reSpace, Bool.or_eq_true, beq_iff_eq] at h
  rcases h with (((rfl | rfl) | rfl) | rfl) | rfl <;> decide

/-- A response that is the single line `Whois Server: t`, for a host `t` without
white space that does not begin with the letter w, refers to `t`. -/
theorem FindReferralServer_line (t : Str) (hne : t ≠ [])
    (hsp : ∀ c ∈ t, isSpace c = false) (hw : ∀ c, t.head? = some c → reFold 'w' c = false) :
    FindReferralServer ("Whois Server: ".toList ++ t) = t := by
  have hre : ∀ c ∈ t, reSpace c = false := by
    intro c hc
    cases h : reSpace c with
    | false => rfl
    | true =>
      have h1 := isSpace_of_reSpace c h
      rw [hsp c hc] at h1
      cases h1
  have hhost := reHost_run t hne hre
  obtain ⟨c, u, rfl⟩ := List.exists_cons_of_ne_nil hne
  have hc : reSpace c = false := hre c (by simp)
  have hwc : reFold 'w' c = false := hw c rfl
  have htarget : reTarget (c :: u) = some (c :: u) := by
    unfold reTarget
    have : reLit "whois://".toList (c :: u) = none := by
      show reLit ('w' :: "hois://".toList) (c :: u) = none
      simp [reLit, hwc]
    rw [this]
    simpa using hhost
  have hvalue : reValue (": ".toList ++ c :: u) = some (c :: u) := by
    show reValue (':' :: ' ' :: c :: u) = some (c :: u)
    have h1 : reStar reSpace reTarget (c :: u) = some (c :: u) := by
      rw [reStar]
      simp [hc, htarget]
    have hs : reSpace ' ' = true := by decide
    simp only [reValue]
    rw [reStar]
    simp only [hs, if_true, h1]
  have hline : reLine ("Whois Server: ".toList ++ c :: u) = some (c :: u) := by
    have e : "Whois Server: ".toList ++ c :: u =
        "Whois Server".toList ++ (": ".toList ++ c :: u) := by
      simp
    unfold reLine
    rw [e, reLit_self]
    show (match reValue (": ".toList ++ c :: u) with
      | some host => some host
      | none => (reLit "ReferralServer".toList
          ("Whois Server".toList ++ (": ".toList ++ c :: u))).bind reValue) = some (c :: u)
    rw [hvalue]
  have hfind : reFind true ("Whois Server: ".toList ++ c :: u) = some (c :: u) := by
    have e : "Whois Server: ".toList ++ c :: u = 'W' :: ("hois Server: ".toList ++ c :: u) := by
      simp
    rw [e, reFind]
    rw [← e]
    simp only [if_true, hline]
  unfold FindReferralServer
  rw [hfind]
  exact TrimSpace_eq_self _ hsp

theorem caseNext_chain (i : Nat) : caseNext (caseChain i) = caseChain (i + 1) := by
  match i with
  | 0 => rfl
  | 1 => rfl
  | n + 2 =>
    have h1 : List.replicate (n + 2) 'b' ≠ ['a'] := by
      simp [List.replicate_succ]
    have h2 : List.replicate (n + 2) 'b' ≠ ['A'] := by
      simp [List.replicate_succ]
    simp only [caseChain, caseNext, h1, h2, if_false]
    rfl

theorem caseChain_injective : Function.Injective caseChain := by
  intro i j h
  match i, j with
  | 0, 0 => rfl
  | 0, 1 => exact absurd h (by decide)
  | 1, 0 => exact absurd h (by decide)
  | 1, 1 => rfl
  | 0, m + 2 => simp [caseChain, List.replicate_succ] at h
  | 1, m + 2 => simp [caseChain, List.replicate_succ] at h
  | n + 2, 0 => simp [caseChain, List.replicate_succ] at h
  | n + 2, 1 => simp [caseChain, List.replicate_succ] at h
  | n + 2, m + 2 =>
    have := congrArg List.length h
    simp only [caseChain, List.length_replicate] at this
    omega

theorem caseChain_refers (i : Nat) :
    FindReferralServer ("Whois Server: ".toList ++ caseChain (i + 1)) = caseChain (i + 1) := by
  apply FindReferralServer_line
  · match i with
    | 0 => decide
    | n + 1 => simp [caseChain, List.replicate_succ]
  · intro c hc
    match i with
    | 0 =>
      simp only [caseChain, List.mem_singleton] at hc
      subst hc
      decide
    | n + 1 =>
      simp only [caseChain] at hc
      rw [List.eq_of_mem_replicate hc]
      decide
  · intro c hc
    match i with
    | 0 =>
      simp only [caseChain, List.head?_cons, Option.some.injEq] at hc
      subst hc
      decide
    | n + 1 =>
      simp only [caseChain, List.replicate_succ, List.head?_cons, Option.some.injEq] at hc
      subst hc
      decide

theorem EqualFold_length (L : Lib) :
    ∀ (s t : Str), EqualFold L s t = true → s.length = t.length
  | [], [], _ => rfl
  | [], _ :: _, h => by simp [EqualFold] at h
  | _ :: _, [], h => by simp [EqualFold] at h
  | _ :: s, _ :: t, h => by
    simp only [EqualFold, Bool.and_eq_true] at h
    simp [EqualFold_length L s t h.2]

theorem plainChain_injective : Function.Injective plainChain := by
  intro i j h
  have := congrArg List.length h
  simp only [plainChain, List.length_replicate] at this
  omega

theorem plainResolve_chain (i : Nat) (q : Str) :
    plainResolve ⟨plainChain i, q⟩ =
      .ok ("Whois Server: ".toList ++ plainChain (i + 1)) := by
  simp [plainResolve, plainChain, List.replicate_succ]

theorem plainChain_refers (i : Nat) :
    FindReferralServer ("Whois Server: ".toList ++ plainChain (i + 1)) =
      plainChain (i + 1) := by
  apply FindReferralServer_line
  · simp [plainChain, List.replicate_succ]
  · intro c hc
    rw [List.eq_of_mem_replicate hc]
    decide
  · intro c hc
    simp only [plainChain, List.replicate_succ, List.head?_cons, Option.some.injEq] at hc
    subst hc
    decide

theorem plainChain_ne (i : Nat) : plainChain (i + 1) ≠ [] := by
  simp [plainChain, List.replicate_succ]

theorem plainChain_fold (L : Lib) (i : Nat) :
    EqualFold L (plainChain (i + 1)) (plainChain i) = false := by
  cases h : EqualFold L (plainChain (i + 1)) (plainChain i) with
  | false => rfl
  | true =>
    have := EqualFold_length L _ _ h
    simp only [plainChain, List.length_replicate] at this
    omega

/-- With `maxFollow` the largest `int` the test `i <= r.maxFollow` never fails:
on an endless chain of pairwise distinct hosts, each referring to the next, the
loop does not return, whatever the bound. -/
theorem resolveLoop_unbounded (L : Lib) (resolve : ZoneConfig → Except GoError Str)
    (h resp : Nat → Str) (hinj : Function.Injective h)
    (hres : ∀ i q, resolve ⟨h i, q⟩ = .ok (resp i))
    (href : ∀ i, FindReferralServer (resp i) = h (i + 1))
    (hne : ∀ i, h (i + 1) ≠ [])
    (hfold : ∀ i, EqualFold L (h (i + 1)) (h i) = false) :
    ∀ (fuel : Nat) (i : Int) (j : Nat) (q : Str) (visited : List Str)
      (calls : List ZoneConfig),
      i ≤ maxInt → (∀ x ∈ visited, ∃ m, m < j ∧ x = h m) →
      resolveLoop L maxInt resolve fuel i visited ⟨h j, q⟩ calls = none := by
  intro fuel
  induction fuel with
  | zero =>
    intro i j q visited calls _ _
    rfl
  | succ fuel ih =>
    intro i j q visited calls hi hvis
    have hv : h j ∉ visited := by
      intro hm
      obtain ⟨m, hm1, hm2⟩ := hvis _ hm
      have := hinj hm2
      omega
    have hb : (FindReferralServer (resp j) == [] ||
        EqualFold L (FindReferralServer (resp j)) (h j)) = false := by
      rw [href]
      simp [hne, hfold]
    rw [resolveLoop]
    simp only [hi, if_true, hv, if_false, hres, hb, Bool.false_eq_true]
    rw [href]
    apply ih _ (j + 1) [] _ _ (wrapInt_le _)
    intro x hx
    rcases List.mem_cons.1 hx with h1 | h1
    · exact ⟨j, by omega, h1⟩
    · obtain ⟨m, hm1, hm2⟩ := hvis x h1
      exact ⟨m, by omega, hm2⟩

/-- C6, as written, fails: the hosts of `caseChain` are pairwise distinct, every
`Resolve` succeeds and the response of each host refers to the next one, yet
with `maxFollow = 3` the run makes one attempt and succeeds, because the second
host equals the first up to case; and with `maxFollow` the largest `int` the
counter wraps, so that on `plainChain`, whose hosts are distinct also up to
case, the run never ends by the number of attempts: it does not return. -/
theorem bound_fails_on_case_variant :
    Function.Injective caseChain ∧
      (∀ i q, caseResolve ⟨caseChain i, q⟩ =
        .ok ("Whois Server: ".toList ++ caseChain (i + 1))) ∧
      (∀ i, FindReferralServer ("Whois Server: ".toList ++ caseChain (i + 1)) =
        caseChain (i + 1)) ∧
      ResolveWithReferrals sampleLib 3 caseResolve ⟨caseChain 0, []⟩ 5 =
        some ⟨"Whois Server: A".toList, ['a'], none, [⟨['a'], []⟩]⟩ ∧
      (∀ fuel, ResolveWithReferrals sampleLib maxInt plainResolve ⟨plainChain 0, []⟩ fuel =
        none) := by
  refine ⟨caseChain_injective, ?_, caseChain_refers, by decide, ?_⟩
  · intro i q
    simp [caseResolve, caseNext_chain]
  · intro fuel
    exact resolveLoop_unbounded sampleLib plainResolve plainChain
      (fun i => "Whois Server: ".toList ++ plainChain (i + 1)) plainChain_injective
      plainResolve_chain plainChain_refers plainChain_ne (plainChain_fold sampleLib)
      fuel 0 0 [] [] [] (by decide) (by intro x hx; cases hx)

/-- C6, amended: for `maxFollow >= 0` below the largest `int` and an infinite
chain of pairwise distinct hosts, none equal to its predecessor under
`strings.EqualFold`, in which every `Resolve` succeeds and the response of each
host refers to the next, the run returns as soon as the bound on the loop is
above `maxFollow + 1`: it makes exactly `maxFollow + 1` attempts, on the first
`maxFollow + 1` hosts in order, and then fails with `ErrInfinityLoop` and an
empty response. -/
theorem ResolveWithReferrals_bound (L : Lib) (maxFollow : Int) (hmax : 0 ≤ maxFollow)
    (hint : maxFollow < maxInt)
    (resolve : ZoneConfig → Except GoError Str) (h resp : Nat → Str) (query : Str)
    (hinj : Function.Injective h)
    (hres : ∀ i q, resolve ⟨h i, q⟩ = .ok (resp i))
    (href : ∀ i, FindReferralServer (resp i) = h (i + 1))
    (hne : ∀ i, h (i + 1) ≠ [])
    (hfold : ∀ i, EqualFold L (h (i + 1)) (h i) = false)
    (fuel : Nat) (hfuel : maxFollow.toNat + 1 < fuel) :
    ∃ run, ResolveWithReferrals L maxFollow resolve ⟨h 0, query⟩ fuel = some run ∧
      run.Raw = [] ∧
      run.Err = some (.sentinel .ErrInfinityLoop) ∧
      run.Calls.map ZoneConfig.Host = (List.range (maxFollow.toNat + 1)).map h ∧
      (run.Calls.length : Int) = maxFollow + 1 := by
  let s : Nat → ZoneConfig := fun i => if i = 0 then ⟨h 0, query⟩ else ⟨h i, []⟩
  have hs : ∀ i, (s i).Host = h i := by
    intro i
    by_cases hi : i = 0
    · subst hi; rfl
    · simp [s, hi]
  have hf : ∀ i, i < maxFollow.toNat + 1 → Follows L resolve (s i) (s (i + 1)) := by
    intro i _
    have hr : resolve (s i) = .ok (resp i) := by
      by_cases hi : i = 0
      · subst hi; exact hres 0 query
      · simp only [s, hi, if_false]; exact hres i []
    refine ⟨resp i, hr, ?_, ?_, ?_⟩
    · rw [href]; exact hne i
    · rw [href, hs]; exact hfold i
    · simp [s, href]
  obtain ⟨n, hn⟩ : ∃ n, fuel = (n + 1) + (maxFollow.toNat + 1) :=
    ⟨fuel - (maxFollow.toNat + 1) - 1, by omega⟩
  have hrun : ResolveWithReferrals L maxFollow resolve ⟨h 0, query⟩ fuel =
      some ⟨[], (s (maxFollow.toNat + 1)).Host, some (.sentinel .ErrInfinityLoop),
        (List.range (maxFollow.toNat + 1)).map s⟩ := by
    unfold ResolveWithReferrals
    have := resolveLoop_chain L maxFollow resolve s (maxFollow.toNat + 1) (n + 1) 0 [] [] hf
      (fun i _ hmem => by cases hmem)
      (fun i j _ _ hij => hinj (by rw [← hs i, ← hs j]; exact hij))
      (le_refl 0) (by push_cast; omega) (fun j hj => by omega)
    rw [show (⟨h 0, query⟩ : ZoneConfig) = s 0 from rfl, hn, this]
    have hgt : ¬ ((0 : Int) + ((maxFollow.toNat + 1 : Nat) : Int) ≤ maxFollow) := by
      push_cast
      omega
    rw [resolveLoop]
    simp only [hgt, if_false, List.nil_append]
  refine ⟨_, hrun, rfl, rfl, ?_, ?_⟩
  · simp only [List.map_map]
    apply List.map_congr_left
    intro i _
    exact hs i
  · simp only [List.length_map, List.length_range]
    omega

/-- Witness of `ResolveWithReferrals_bound` (C6), on `plainChain` with
`maxFollow = 2`: three attempts, then `ErrInfinityLoop`. -/
theorem ResolveWithReferrals_bound_witness :
    ∃ run, ResolveWithReferrals sampleLib 2 plainResolve ⟨plainChain 0, []⟩ 4 = some run ∧
      run.Raw = [] ∧
      run.Err = some (.sentinel .ErrInfinityLoop) ∧
      run.Calls.map ZoneConfig.Host = (List.range ((2 : Int).toNat + 1)).map plainChain ∧
      (run.Calls.length : Int) = 2 + 1 :=
  ResolveWithReferrals_bound sampleLib 2 (by decide) (by decide) plainResolve plainChain
    (fun i => "Whois Server: ".toList ++ plainChain (i + 1)) []
    plainChain_injective plainResolve_chain plainChain_refers plainChain_ne
    (plainChain_fold sampleLib) 4 (by decide)

/-! ## Parsing (C9, C10) -/

theorem Split_append (sep : Char) (a b : Str) :
    Split (a ++ sep :: b) sep = Split a sep ++ Split b sep := by
  induction a with
  | nil => simp [Split]
  | cons c t ih =>
    obtain ⟨l0, ls, hls⟩ := List.exists_cons_of_ne_nil (Split_ne_nil t sep)
    by_cases hc : c = sep
    · simp [Split, hc, ih]
    · simp [Split, hc, ih, hls]

theorem TrimSuffix_append (label suffix : Str) : TrimSuffix (label ++ suffix) suffix = label := by
  unfold TrimSuffix
  rw [if_pos (List.suffix_append _ _)]
  simp

theorem ToLower_of_chars (L : Lib) (s : Str) (h : ∀ c ∈ s, InAlphabet c ∨ c = '.') :
    ToLower L s = s := by
  unfold ToLower
  conv_rhs => rw [← List.map_id s]
  apply List.map_congr_left
  intro c hc
  have hn : c.toNat < 128 := by
    rcases toNat_of_InAlphabet c (h c hc) with h1 | h1 <;> omega
  simp [hn, asciiLower_of_InAlphabet c (h c hc)]

/-- What a successful `Parse` went through. -/
theorem Parse_ok_inv (L : Lib) (raw : Str) (d : Domain) (h : Parse L raw = .ok d) :
    ∃ a base, L.LookupToASCII (ToLower L (TrimSpace raw)) = some a ∧ IsValid L a = true ∧
      (L.PublicSuffix a).1 ≠ [] ∧ L.EffectiveTLDPlusOne a = some base ∧
      d = ⟨raw, TrimSuffix base ('.' :: (L.PublicSuffix a).1), (L.PublicSuffix a).1,
        (L.PublicSuffix a).2, !(L.PublicSuffix a).2⟩ := by
  unfold Parse at h
  simp only [] at h
  split_ifs at h with h1
  cases hl : L.LookupToASCII (ToLower L (TrimSpace raw)) with
  | none => simp [hl] at h
  | some a =>
    simp only [hl] at h
    split_ifs at h with h2 h3
    cases hb : L.EffectiveTLDPlusOne a with
    | none => simp [hb] at h
    | some base =>
      simp only [hb, Except.ok.injEq] at h
      refine ⟨a, base, rfl, by simpa using h2, by simpa using h3, hb, h.symm⟩

/-- C9, where the code departs from it: `co.uk` is an ASCII name of two labels
that `IsValid` accepts, and `Parse` does not succeed on it: it returns
`ErrPublicSuffix`, because the name is itself a public suffix, on which
`EffectiveTLDPlusOne` fails, so that the result with an empty `Name` that
`String()` provides for is never built. -/
theorem Parse_fails_on_public_suffix :
    isASCII "co.uk".toList = true ∧ IsValid sampleLib "co.uk".toList = true ∧
      Parse sampleLib "co.uk".toList = .error .ErrPublicSuffix := by
  decide

/-- How `Parse` goes on after `IsValid`: on a string that `IsValid` accepts and
on whose trimmed form both IDNA conversions are the identity, `Parse` succeeds
when the public suffix is non-empty and `EffectiveTLDPlusOne` succeeds, and
fails with `ErrPublicSuffix` otherwise. -/
theorem Parse_of_IsValid (L : Lib) (raw : Str) (hv : IsValid L raw = true)
    (hP : L.ToASCII (TrimSpace raw) = some (TrimSpace raw))
    (hL : L.LookupToASCII (TrimSpace raw) = some (TrimSpace raw)) :
    (∀ base, (L.PublicSuffix (TrimSpace raw)).1 ≠ [] →
      L.EffectiveTLDPlusOne (TrimSpace raw) = some base →
      Parse L raw = .ok ⟨raw, TrimSuffix base ('.' :: (L.PublicSuffix (TrimSpace raw)).1),
        (L.PublicSuffix (TrimSpace raw)).1, (L.PublicSuffix (TrimSpace raw)).2,
        !(L.PublicSuffix (TrimSpace raw)).2⟩) ∧
    ((L.PublicSuffix (TrimSpace raw)).1 = [] ∨ L.EffectiveTLDPlusOne (TrimSpace raw) = none →
      Parse L raw = .error .ErrPublicSuffix) := by
  obtain ⟨hne, hrules⟩ := rules_of_IsValid L raw _ hv hP
  have hlow : ToLower L (TrimSpace raw) = TrimSpace raw :=
    ToLower_of_chars L _ (DomainRules_chars _ hrules)
  have hv2 : IsValid L (TrimSpace raw) = true := IsValid_of_rules L _ hP hrules
  have hne2 : (TrimSpace raw == []) = false := by simpa using hne
  constructor
  · intro base ht hb
    have ht2 : ((L.PublicSuffix (TrimSpace raw)).1 == []) = false := by simpa using ht
    unfold Parse
    simp only [hlow, hne2, hL, hv2, ht2, hb, Bool.not_true, Bool.false_eq_true, if_false]
  · intro h
    unfold Parse
    simp only [hlow, hne2, hL, hv2, Bool.not_true, Bool.false_eq_true, if_false]
    rcases h with h | h
    · simp [h]
    · simp only [h]
      split_ifs <;> rfl

/-- The lemma `Parse_of_IsValid` at `"example.com"`. -/
theorem Parse_of_IsValid_witness :
    IsValid sampleLib "example.com".toList = true ∧
      Parse sampleLib "example.com".toList =
        .ok ⟨"example.com".toList, "example".toList, "com".toList, true, false⟩ :=
  ⟨by decide,
    (Parse_of_IsValid sampleLib "example.com".toList (by decide) rfl rfl).1
      "example.com".toList (by decide) (by decide)⟩

theorem DomainRules_of_suffix (a pre base label tld : Str) (ha : DomainRules a)
    (hcut : a = pre ++ base) (hpre : pre = [] ∨ pre.getLast? = some '.')
    (hbase : base = label ++ '.' :: tld) : DomainRules base := by
  have hsub : ∀ l ∈ Split base '.', l ∈ Split a '.' := by
    rcases hpre with h | h
    · subst h
      intro l hl
      simpa [hcut] using hl
    · obtain ⟨p2, rfl⟩ := List.getLast?_eq_some_iff.1 h
      intro l hl
      have e : a = p2 ++ '.' :: base := by simp [hcut]
      rw [e, Split_append]
      exact List.mem_append_right _ hl
  refine ⟨?_, ?_, fun l hl => ha.2.2 l (hsub l hl)⟩
  · have := ha.1
    rw [hcut, len_append] at this
    omega
  · rw [hbase, Split_append, List.length_append]
    have h1 : 0 < (Split label '.').length := List.length_pos.2 (Split_ne_nil _ _)
    have h2 : 0 < (Split tld '.').length := List.length_pos.2 (Split_ne_nil _ _)
    omega

/-- C10: when `Parse` succeeds, the TLD of the result is non-empty, and the
`String()` of the result is accepted by `IsValid`, is ASCII and is unchanged by
lower-casing.  The external libraries enter the second part through what they
promise: the Punycode conversion returns the `Lookup` form and the `String()`
unchanged, and `EffectiveTLDPlusOne` returns the public suffix with the label
before it. -/
theorem Parse_String_valid (L : Lib) (raw : Str) (d : Domain) (hp : Parse L raw = .ok d) :
    d.TLD ≠ [] ∧
      ((∀ a, L.LookupToASCII (ToLower L (TrimSpace raw)) = some a →
          L.ToASCII (TrimSpace a) = some a ∧ ETLDPlusOneContract L a) →
        L.ToASCII d.String = some d.String →
        IsValid L d.String = true ∧ isASCII d.String = true ∧
          d.String.map asciiLower = d.String) := by
  obtain ⟨a, base, hl, hv, htld, hb, hd⟩ := Parse_ok_inv L raw d hp
  have htldd : d.TLD = (L.PublicSuffix a).1 := by rw [hd]
  refine ⟨by rw [htldd]; exact htld, ?_⟩
  intro hlib hid
  obtain ⟨hA, hcon⟩ := hlib a hl
  obtain ⟨pre, label, hcut, hpre, hbase, hlab, _⟩ := hcon base hb
  have hra : DomainRules a := (rules_of_IsValid L a a hv hA).2
  have hrb : DomainRules base := DomainRules_of_suffix a pre base label _ hra hcut hpre hbase
  have hname : d.Name = label := by
    rw [hd]
    show TrimSuffix base ('.' :: (L.PublicSuffix a).1) = label
    rw [hbase]
    exact TrimSuffix_append label _
  have hstr : d.String = base := by
    have hn : (d.Name == []) = false := by rw [hname]; simpa using hlab
    unfold Domain.String
    rw [hn, hname, htldd, hbase]
    simp
  have hchars := DomainRules_chars base hrb
  refine ⟨?_, ?_, ?_⟩
  · rw [hstr] at hid ⊢
    exact IsValid_of_rules L base hid hrb
  · rw [hstr]
    simp only [isASCII, List.all_eq_true, decide_eq_true_eq]
    intro c hc
    rcases toNat_of_InAlphabet c (hchars c hc) with h1 | h1 <;> omega
  · rw [hstr]
    conv_rhs => rw [← List.map_id base]
    apply List.map_congr_left
    intro c hc
    simpa using asciiLower_of_InAlphabet c (hchars c hc)

/-- Witness of `Parse_String_valid` (C10), at `" Sub.Example.co.uk"`. -/
theorem Parse_String_valid_witness :
    Parse sampleLib " Sub.Example.co.uk".toList =
        .ok ⟨" Sub.Example.co.uk".toList, "example".toList, "co.uk".toList, true, false⟩ ∧
      "co.uk".toList ≠ [] ∧ IsValid sampleLib "example.co.uk".toList = true ∧
        isASCII "example.co.uk".toList = true ∧
        "example.co.uk".toList.map asciiLower = "example.co.uk".toList :=
  ⟨by decide,
    (Parse_String_valid sampleLib " Sub.Example.co.uk".toList
      ⟨" Sub.Example.co.uk".toList, "example".toList, "co.uk".toList, true, false⟩
      (by decide)).1,
    (Parse_String_valid sampleLib " Sub.Example.co.uk".toList
      ⟨" Sub.Example.co.uk".toList, "example".toList, "co.uk".toList, true, false⟩
      (by decide)).2
      (by
        intro a ha
        have e : a = "sub.example.co.uk".toList :=
          (Option.some.inj ((show sampleLib.LookupToASCII
            (ToLower sampleLib (TrimSpace " Sub.Example.co.uk".toList)) =
            some "sub.example.co.uk".toList by decide).symm.trans ha)).symm
        subst e
        refine ⟨by decide, ?_⟩
        intro base hb
        have e2 : base = "example.co.uk".toList :=
          (Option.some.inj ((show sampleLib.EffectiveTLDPlusOne "sub.example.co.uk".toList =
            some "example.co.uk".toList by decide).symm.trans hb)).symm
        subst e2
        exact ⟨"sub.".toList, "example".toList, by decide, Or.inr (by decide), by decide,
          by decide, by decide⟩)
      (by decide)⟩

/-! ## Parsing (C11, C12, C13, C18) -/

/-- C11: on the bare public suffix `com`, the input of the test case "just TLD",
`IsValid` returns false for want of a dot and `Parse` fails with
`ErrInvalidDomain`; on the bare public suffix `co.uk`, which has a dot, `Parse`
fails with `ErrPublicSuffix`.  Neither gives a `Domain` with an empty `Name`. -/
theorem Parse_bare_suffix_fails :
    IsValid sampleLib "com".toList = false ∧
      Parse sampleLib "com".toList = .error .ErrInvalidDomain ∧
      sampleLib.PublicSuffix "co.uk".toList = ("co.uk".toList, true) ∧
      Parse sampleLib "co.uk".toList = .error .ErrPublicSuffix := by
  decide

/-- The stand-in keeps the promise of `EffectiveTLDPlusOne` at
`sub.example.co.uk`. -/
theorem sample_contract : ETLDPlusOneContract sampleLib "sub.example.co.uk".toList := by
  intro base hb
  have e : base = "example.co.uk".toList :=
    (Option.some.inj ((show sampleLib.EffectiveTLDPlusOne "sub.example.co.uk".toList =
      some "example.co.uk".toList by decide).symm.trans hb)).symm
  subst e
  exact ⟨"sub.".toList, "example".toList, by decide, Or.inr (by decide), by decide,
    by decide, by decide⟩

/-- C12: when `Parse` succeeds, the TLD is the public suffix of the normalized
input (trimmed, lower-cased, converted by `Lookup`), and, `EffectiveTLDPlusOne`
keeping its promise, the `Name` is the one label left of that suffix, without a
dot, the labels further left are dropped, and `String()` is the registrable
domain. -/
theorem Parse_registrable (L : Lib) (raw : Str) (d : Domain) (hp : Parse L raw = .ok d) :
    ∃ a base, L.LookupToASCII (ToLower L (TrimSpace raw)) = some a ∧
      d.TLD = (L.PublicSuffix a).1 ∧ L.EffectiveTLDPlusOne a = some base ∧
      (ETLDPlusOneContract L a →
        d.String = base ∧ d.Name ≠ [] ∧ '.' ∉ d.Name ∧
          ∃ pre, a = pre ++ (d.Name ++ '.' :: d.TLD) ∧ (pre = [] ∨ pre.getLast? = some '.')) := by
  obtain ⟨a, base, hl, _, _, hb, hd⟩ := Parse_ok_inv L raw d hp
  have htld : d.TLD = (L.PublicSuffix a).1 := by rw [hd]
  refine ⟨a, base, hl, htld, hb, ?_⟩
  intro hcon
  obtain ⟨pre, label, hcut, hpre, hbase, hlab, hdot⟩ := hcon base hb
  have hname : d.Name = label := by
    rw [hd]
    show TrimSuffix base ('.' :: (L.PublicSuffix a).1) = label
    rw [hbase]
    exact TrimSuffix_append label _
  have hstr : d.String = base := by
    have hn : (d.Name == []) = false := by rw [hname]; simpa using hlab
    unfold Domain.String
    rw [hn, hname, htld, hbase]
    simp
  refine ⟨hstr, by rw [hname]; exact hlab, by rw [hname]; exact hdot, pre, ?_, hpre⟩
  rw [hname, htld, ← hbase]
  exact hcut

/-- Witness of `Parse_registrable` (C12), at `"sub.example.co.uk"`, with the
second example `"a.b.c.d.example.io"` of the tests. -/
theorem Parse_registrable_witness :
    Parse sampleLib "sub.example.co.uk".toList =
        .ok ⟨"sub.example.co.uk".toList, "example".toList, "co.uk".toList, true, false⟩ ∧
      Parse sampleLib "a.b.c.d.example.io".toList =
        .ok ⟨"a.b.c.d.example.io".toList, "example".toList, "io".toList, true, false⟩ ∧
      ETLDPlusOneContract sampleLib "sub.example.co.uk".toList ∧
      ∃ a base,
        sampleLib.LookupToASCII (ToLower sampleLib (TrimSpace "sub.example.co.uk".toList)) =
          some a ∧
        "co.uk".toList = (sampleLib.PublicSuffix a).1 ∧
        sampleLib.EffectiveTLDPlusOne a = some base ∧
        (ETLDPlusOneContract sampleLib a →
          "example.co.uk".toList = base ∧ "example".toList ≠ [] ∧ '.' ∉ "example".toList ∧
            ∃ pre, a = pre ++ ("example".toList ++ '.' :: "co.uk".toList) ∧
              (pre = [] ∨ pre.getLast? = some '.')) :=
  ⟨by decide, by decide, sample_contract,
    Parse_registrable sampleLib "sub.example.co.uk".toList
      ⟨"sub.example.co.uk".toList, "example".toList, "co.uk".toList, true, false⟩ (by decide)⟩

/-- C18: when `Parse` succeeds, `IsCustom` is the negation of `ICANN`, so exactly
one of the two flags is true. -/
theorem Parse_flags (L : Lib) (raw : Str) (d : Domain) (hp : Parse L raw = .ok d) :
    d.IsCustom = !d.ICANN ∧ (d.ICANN = true ∨ d.IsCustom = true) ∧
      ¬ (d.ICANN = true ∧ d.IsCustom = true) := by
  obtain ⟨a, base, _, _, _, _, hd⟩ := Parse_ok_inv L raw d hp
  rw [hd]
  cases (L.PublicSuffix a).2 <;> simp

/-- Witness of `Parse_flags` (C18), at `"example.com"`, under an ICANN rule, with
`"example.blogspot.com"`, under a private rule. -/
theorem Parse_flags_witness :
    Parse sampleLib "example.com".toList =
        .ok ⟨"example.com".toList, "example".toList, "com".toList, true, false⟩ ∧
      Parse sampleLib "example.blogspot.com".toList =
        .ok ⟨"example.blogspot.com".toList, "example".toList, "blogspot.com".toList,
          false, true⟩ ∧
      (false = !true ∧ (true = true ∨ false = true) ∧ ¬ (true = true ∧ false = true)) :=
  ⟨by decide, by decide,
    Parse_flags sampleLib "example.com".toList
      ⟨"example.com".toList, "example".toList, "com".toList, true, false⟩ (by decide)⟩

theorem TrimSpace_of_spaces (s : Str) (h : ∀ c ∈ s, isSpace c = true) : TrimSpace s = [] := by
  unfold TrimSpace
  rw [List.dropWhile_eq_nil_iff.2 h]
  rfl

theorem mem_of_mem_TrimSpace (s : Str) (c : Char) (h : c ∈ TrimSpace s) : c ∈ s :=
  (List.dropWhile_suffix isSpace).subset
    ((List.rdropWhile_prefix isSpace (l := s.dropWhile isSpace)).subset h)

theorem ToLower_of_ASCII (L : Lib) (s : Str) (h : isASCII s = true) :
    ToLower L s = s.map asciiLower := by
  unfold ToLower
  apply List.map_congr_left
  intro c hc
  simp only [isASCII, List.all_eq_true, decide_eq_true_eq] at h
  simp [h c hc]

theorem asciiLower_ofNat_ne_dot (n : Nat) (h : 65 ≤ n ∧ n ≤ 90) :
    asciiLower (Char.ofNat n) ≠ '.' := by
  obtain ⟨h1, h2⟩ := h
  interval_cases n <;> decide

theorem asciiLower_eq_dot (c : Char) : asciiLower c = '.' ↔ c = '.' := by
  by_cases h : 'A' ≤ c ∧ c ≤ 'Z'
  · have h1 : 'A'.toNat ≤ c.toNat := h.1
    have h2 : c.toNat ≤ 'Z'.toNat := h.2
    have eA : 'A'.toNat = 65 := by decide
    have eZ : 'Z'.toNat = 90 := by decide
    have hne := asciiLower_ofNat_ne_dot c.toNat ⟨by omega, by omega⟩
    rw [Char.ofNat_toNat] at hne
    constructor
    · intro e; exact absurd e hne
    · intro e
      subst e
      exact absurd h (by decide)
  · simp [asciiLower, h]

theorem Split_map (f : Char → Char) (sep : Char) (hf : ∀ c, f c = sep ↔ c = sep) (s : Str) :
    Split (s.map f) sep = (Split s sep).map (List.map f) := by
  induction s with
  | nil => simp [Split]
  | cons c t ih =>
    obtain ⟨l0, ls, hls⟩ := List.exists_cons_of_ne_nil (Split_ne_nil t sep)
    by_cases hc : c = sep
    · have hfc : f c = sep := (hf c).2 hc
      subst hc
      simp [Split, hfc, ih]
    · have hfc : f c ≠ sep := fun e => hc ((hf c).1 e)
      simp [Split, hc, hfc, ih, hls]

/-- A string with an empty label, or with fewer than two labels, stays so under
a conversion that keeps the labels. -/
theorem bad_labels_kept (s a : Str) (hk : KeepsLabels s a)
    (h : [] ∈ Split s '.' ∨ (Split s '.').length < 2) :
    [] ∈ Split a '.' ∨ (Split a '.').length < 2 := by
  rcases h with h | h
  · exact Or.inl (hk.2 h)
  · exact Or.inr (by rw [hk.1]; exact h)

theorem not_DomainRules_of_bad (a : Str)
    (h : [] ∈ Split a '.' ∨ (Split a '.').length < 2) : ¬ DomainRules a := by
  intro hr
  rcases h with h | h
  · exact (hr.2.2 [] h).1 rfl
  · have := hr.2.1
    omega

/-- C13: on an input that is empty or all white space `Parse` fails with
`ErrEmptyDomain`; on an ASCII input whose trimmed form is non-empty and has an
empty label or fewer than two labels `Parse` fails with `ErrInvalidDomain`, the
IDNA conversions keeping the labels as they promise. -/
theorem Parse_rejects (L : Lib) (raw : Str) :
    ((∀ c ∈ raw, isSpace c = true) → Parse L raw = .error .ErrEmptyDomain) ∧
    (isASCII raw = true → TrimSpace raw ≠ [] →
      ([] ∈ Split (TrimSpace raw) '.' ∨ (Split (TrimSpace raw) '.').length < 2) →
      (∀ a, L.LookupToASCII (ToLower L (TrimSpace raw)) = some a →
        KeepsLabels (ToLower L (TrimSpace raw)) a ∧
          ∀ a2, L.ToASCII (TrimSpace a) = some a2 → KeepsLabels a a2) →
      Parse L raw = .error .ErrInvalidDomain) := by
  constructor
  · intro h
    have ht := TrimSpace_of_spaces raw h
    simp [Parse, ht, ToLower]
  · intro hascii hne hbad hlib
    have hta : isASCII (TrimSpace raw) = true := by
      simp only [isASCII, List.all_eq_true, decide_eq_true_eq] at hascii ⊢
      intro c hc
      exact hascii c (mem_of_mem_TrimSpace raw c hc)
    have hlow := ToLower_of_ASCII L (TrimSpace raw) hta
    have hnorm : (ToLower L (TrimSpace raw) == []) = false := by
      rw [hlow]
      simpa using hne
    have hbadn : [] ∈ Split (ToLower L (TrimSpace raw)) '.' ∨
        (Split (ToLower L (TrimSpace raw)) '.').length < 2 := by
      rw [hlow, Split_map asciiLower '.' asciiLower_eq_dot]
      rcases hbad with h | h
      · exact Or.inl (List.mem_map.2 ⟨[], h, rfl⟩)
      · exact Or.inr (by simpa using h)
    unfold Parse
    simp only [hnorm, Bool.false_eq_true, if_false]
    cases hl : L.LookupToASCII (ToLower L (TrimSpace raw)) with
    | none => rfl
    | some a =>
      obtain ⟨hk1, hk2⟩ := hlib a hl
      have hbada := bad_labels_kept _ a hk1 hbadn
      have hv : IsValid L a = false := by
        cases hva : IsValid L a with
        | false => rfl
        | true =>
          obtain ⟨_, _, a2, ha2, hr⟩ := (IsValid_iff L a).1 hva
          exact absurd hr (not_DomainRules_of_bad a2 (bad_labels_kept a a2 (hk2 a2 ha2) hbada))
      simp [hv]

/-- Witness of `Parse_rejects` (C13): the four failing inputs of the tests. -/
theorem Parse_rejects_witness :
    Parse sampleLib [] = .error .ErrEmptyDomain ∧
      Parse sampleLib "  ".toList = .error .ErrEmptyDomain ∧
      Parse sampleLib ".".toList = .error .ErrInvalidDomain ∧
      Parse sampleLib "example..com".toList = .error .ErrInvalidDomain :=
  ⟨(Parse_rejects sampleLib []).1 (by decide),
    (Parse_rejects sampleLib "  ".toList).1 (by decide),
    (Parse_rejects sampleLib ".".toList).2 (by decide) (by decide) (by decide)
      (fun a ha => by
        have e : a = ".".toList := (Option.some.inj ((show sampleLib.LookupToASCII
          (ToLower sampleLib (TrimSpace ".".toList)) = some ".".toList by decide).symm.trans
          ha)).symm
        subst e
        refine ⟨by decide, ?_⟩
        intro a2 ha2
        have e2 : a2 = ".".toList := (Option.some.inj ((show sampleLib.ToASCII
          (TrimSpace ".".toList) = some ".".toList by decide).symm.trans ha2)).symm
        subst e2
        decide),
    (Parse_rejects sampleLib "example..com".toList).2 (by decide) (by decide) (by decide)
      (fun a ha => by
        have e : a = "example..com".toList := (Option.some.inj ((show sampleLib.LookupToASCII
          (ToLower sampleLib (TrimSpace "example..com".toList)) = some "example..com".toList
          by decide).symm.trans ha)).symm
        subst e
        refine ⟨by decide, ?_⟩
        intro a2 ha2
        have e2 : a2 = "example..com".toList := (Option.some.inj ((show sampleLib.ToASCII
          (TrimSpace "example..com".toList) = some "example..com".toList
          by decide).symm.trans ha2)).symm
        subst e2
        decide)⟩

/-! ## The lookup entry point (C15, C19) -/

/-- C15: on an input that `IsValid` rejects or on which `Parse` fails, `Lookup`
returns no `Result` and an error with the code `INVALID_DOMAIN`, the raw input
as `Domain`, an empty `Server` and a non-nil cause, and it calls neither
`GetServer` nor `Resolve`. -/
theorem Lookup_invalid (L : Lib) (resolve : Domain → ZoneConfig → Except GoError Str)
    (w : Whois) (input : Str)
    (h : IsValid L input = false ∨ ∃ e, Parse L input = .error e) :
    ErrorCode.ErrInvalidDomain.text = "INVALID_DOMAIN".toList ∧
      ∃ cause, ∀ fuel, Whois.Lookup L resolve w input fuel =
        some ⟨none, some ⟨input, [], .ErrInvalidDomain, some cause⟩, [], []⟩ := by
  refine ⟨rfl, ?_⟩
  cases hv : IsValid L input with
  | false => exact ⟨.invalidInput input, fun fuel => by simp [Whois.Lookup, hv, NewError]⟩
  | true =>
    rcases h with h | ⟨e, he⟩
    · rw [hv] at h
      cases h
    · exact ⟨.domain e, fun fuel => by simp [Whois.Lookup, hv, he, NewError]⟩

/-- Witness of `Lookup_invalid` (C15), at `"example"`, which `IsValid` rejects,
and at `"co.uk"`, on which `Parse` fails. -/
theorem Lookup_invalid_witness :
    (ErrorCode.ErrInvalidDomain.text = "INVALID_DOMAIN".toList ∧
      ∃ cause, ∀ fuel,
        Whois.Lookup sampleLib (fun _ _ => .ok []) sampleClient "example".toList fuel =
          some ⟨none, some ⟨"example".toList, [], .ErrInvalidDomain, some cause⟩, [], []⟩) ∧
    (ErrorCode.ErrInvalidDomain.text = "INVALID_DOMAIN".toList ∧
      ∃ cause, ∀ fuel,
        Whois.Lookup sampleLib (fun _ _ => .ok []) sampleClient "co.uk".toList fuel =
          some ⟨none, some ⟨"co.uk".toList, [], .ErrInvalidDomain, some cause⟩, [], []⟩) :=
  ⟨Lookup_invalid sampleLib (fun _ _ => .ok []) sampleClient "example".toList
      (Or.inl (by decide)),
    Lookup_invalid sampleLib (fun _ _ => .ok []) sampleClient "co.uk".toList
      (Or.inr ⟨.ErrPublicSuffix, by decide⟩)⟩

theorem mem_dropWhile_of_not {α : Type} (p : α → Bool) (l : List α) (x : α) (hx : x ∈ l)
    (hp : p x = false) : x ∈ l.dropWhile p := by
  induction l with
  | nil => cases hx
  | cons a t ih =>
    by_cases ha : p a = true
    · rcases List.mem_cons.1 hx with e | ht
      · subst e
        rw [hp] at ha
        cases ha
      · simpa [List.dropWhile, ha] using ih ht
    · simp only [Bool.not_eq_true] at ha
      simpa [List.dropWhile, ha] using hx

theorem mem_TrimSpace_of_not_space (s : Str) (c : Char) (hc : c ∈ s) (hs : isSpace c = false) :
    c ∈ TrimSpace s := by
  unfold TrimSpace List.rdropWhile
  rw [List.mem_reverse]
  apply mem_dropWhile_of_not _ _ _ _ hs
  rw [List.mem_reverse]
  exact mem_dropWhile_of_not _ _ _ hc hs

theorem upper_ofNat (n : Nat) (h : 65 ≤ n ∧ n ≤ 90) :
    isSpace (Char.ofNat n) = false ∧ (asciiLower (Char.ofNat n)).toNat < 128 ∧
      isSpace (asciiLower (Char.ofNat n)) = false ∧
      asciiLower (asciiLower (Char.ofNat n)) = asciiLower (Char.ofNat n) := by
  obtain ⟨h1, h2⟩ := h
  interval_cases n <;> decide

theorem toNat_of_upper (c : Char) (h : 'A' ≤ c ∧ c ≤ 'Z') : 65 ≤ c.toNat ∧ c.toNat ≤ 90 := by
  have h1 : 'A'.toNat ≤ c.toNat := h.1
  have h2 : c.toNat ≤ 'Z'.toNat := h.2
  have eA : 'A'.toNat = 65 := by decide
  have eZ : 'Z'.toNat = 90 := by decide
  exact ⟨by omega, by omega⟩

theorem upper_facts (c : Char) (h : 'A' ≤ c ∧ c ≤ 'Z') :
    isSpace c = false ∧ (asciiLower c).toNat < 128 ∧ isSpace (asciiLower c) = false ∧
      asciiLower (asciiLower c) = asciiLower c := by
  have := upper_ofNat c.toNat (toNat_of_upper c h)
  rwa [Char.ofNat_toNat] at this

theorem isSpace_asciiLower (c : Char) : isSpace (asciiLower c) = isSpace c := by
  by_cases h : 'A' ≤ c ∧ c ≤ 'Z'
  · obtain ⟨h1, _, h3, _⟩ := upper_facts c h
    rw [h1, h3]
  · simp [asciiLower, h]

theorem asciiLower_idem (c : Char) : asciiLower (asciiLower c) = asciiLower c := by
  by_cases h : 'A' ≤ c ∧ c ≤ 'Z'
  · exact (upper_facts c h).2.2.2
  · simp [asciiLower, h]

theorem asciiLower_toNat (c : Char) (hc : c.toNat < 128) : (asciiLower c).toNat < 128 := by
  by_cases h : 'A' ≤ c ∧ c ≤ 'Z'
  · exact (upper_facts c h).2.1
  · simpa [asciiLower, h] using hc

theorem dropWhile_map_asciiLower (s : Str) :
    (s.map asciiLower).dropWhile isSpace = (s.dropWhile isSpace).map asciiLower := by
  induction s with
  | nil => rfl
  | cons c t ih =>
    cases hc : isSpace c with
    | true => simp [List.dropWhile, isSpace_asciiLower, hc, ih]
    | false => simp [List.dropWhile, isSpace_asciiLower, hc]

theorem TrimSpace_map_asciiLower (s : Str) :
    TrimSpace (s.map asciiLower) = (TrimSpace s).map asciiLower := by
  unfold TrimSpace List.rdropWhile
  rw [dropWhile_map_asciiLower, ← List.map_reverse, dropWhile_map_asciiLower, List.map_reverse]

/-- The normalized form of an ASCII input is that of its lower-cased form. -/
theorem norm_of_lower (L : Lib) (input : Str) (h : isASCII input = true) :
    ToLower L (TrimSpace (input.map asciiLower)) = ToLower L (TrimSpace input) := by
  have hta : isASCII (TrimSpace input) = true := by
    simp only [isASCII, List.all_eq_true, decide_eq_true_eq] at h ⊢
    intro c hc
    exact h c (mem_of_mem_TrimSpace input c hc)
  have htl : isASCII ((TrimSpace input).map asciiLower) = true := by
    simp only [isASCII, List.all_eq_true, decide_eq_true_eq, List.mem_map] at hta ⊢
    rintro c ⟨b, hb, rfl⟩
    exact asciiLower_toNat b (hta b hb)
  rw [TrimSpace_map_asciiLower, ToLower_of_ASCII L _ htl, ToLower_of_ASCII L _ hta,
    List.map_map]
  apply List.map_congr_left
  intro c _
  exact asciiLower_idem c

/-- The result of `Parse` depends on the raw input through its normalized form,
and keeps the raw input in `Raw`. -/
theorem Parse_of_same_norm (L : Lib) (raw raw2 : Str) (d : Domain)
    (hn : ToLower L (TrimSpace raw2) = ToLower L (TrimSpace raw))
    (h : Parse L raw2 = .ok d) : Parse L raw = .ok { d with Raw := raw } := by
  unfold Parse at h ⊢
  rw [hn] at h
  simp only [] at h ⊢
  split_ifs at h ⊢ with h1
  cases hl : L.LookupToASCII (ToLower L (TrimSpace raw)) with
  | none => simp [hl] at h
  | some a =>
    simp only [hl] at h ⊢
    split_ifs at h ⊢ with h2 h3
    cases hb : L.EffectiveTLDPlusOne a with
    | none => simp [hb] at h
    | some base =>
      simp only [hb, Except.ok.injEq] at h ⊢
      rw [← h]

/-- C19, as written, fails: the ASCII input `xn--mnchen-3YA.com` holds upper-case
letters, the Punycode conversion inside `IsValid` returns it in lower case, so
`IsValid` accepts it and `Lookup` goes on to `GetServer` and to `Resolve`. -/
theorem Lookup_accepts_upper_ace :
    isASCII "xn--mnchen-3YA.com".toList = true ∧
      hasUpper "xn--mnchen-3YA.com".toList = true ∧
      IsValid aceLib "xn--mnchen-3YA.com".toList = true ∧
      Whois.Lookup aceLib (fun _ _ => .ok "No match".toList) sampleClient
          "xn--mnchen-3YA.com".toList 12 =
        some ⟨some ⟨"No match".toList, "xn--mnchen-3ya.com".toList,
            "whois.verisign-grs.com".toList⟩, none,
          [⟨"xn--mnchen-3YA.com".toList, "xn--mnchen-3ya".toList, "com".toList, true, false⟩],
          [⟨"whois.verisign-grs.com".toList, []⟩]⟩ := by
  decide

/-- C19, amended: on an input that holds an upper-case letter `A` to `Z` and
whose trimmed form the Punycode conversion returns unchanged, `Lookup` fails
with the code `INVALID_DOMAIN` on the `IsValid` test, before any normalization,
and calls neither `GetServer` nor `Resolve`; and when the input is ASCII, `Parse`
succeeds on it whenever it succeeds on the lower-cased input, with the same
result but for `Raw`. -/
theorem Lookup_upper (L : Lib) (resolve : Domain → ZoneConfig → Except GoError Str)
    (w : Whois) (input : Str) (hup : hasUpper input = true)
    (hid : L.ToASCII (TrimSpace input) = some (TrimSpace input)) :
    IsValid L input = false ∧
      (∀ fuel, Whois.Lookup L resolve w input fuel =
        some ⟨none, some ⟨input, [], .ErrInvalidDomain, some (.invalidInput input)⟩,
          [], []⟩) ∧
      (isASCII input = true → ∀ d, Parse L (input.map asciiLower) = .ok d →
        Parse L input = .ok { d with Raw := input }) := by
  have hv : IsValid L input = false := by
    cases hva : IsValid L input with
    | false => rfl
    | true =>
      exfalso
      obtain ⟨_, hr⟩ := rules_of_IsValid L input _ hva hid
      simp only [hasUpper, List.any_eq_true, decide_eq_true_eq] at hup
      obtain ⟨c, hc, hcu⟩ := hup
      have hsp := (upper_facts c hcu).1
      have hct := mem_TrimSpace_of_not_space input c hc hsp
      have h1 := toNat_of_InAlphabet c (DomainRules_chars _ hr c hct)
      have h2 := toNat_of_upper c hcu
      omega
  refine ⟨hv, fun fuel => by simp [Whois.Lookup, hv, NewError], ?_⟩
  intro hascii d hd
  exact Parse_of_same_norm L input _ d (norm_of_lower L input hascii) hd

/-- Witness of `Lookup_upper` (C19), at `"Example.com"`. -/
theorem Lookup_upper_witness :
    IsValid sampleLib "Example.com".toList = false ∧
      (∀ fuel, Whois.Lookup sampleLib (fun _ _ => .ok "No match".toList) sampleClient
          "Example.com".toList fuel =
        some ⟨none, some ⟨"Example.com".toList, [], .ErrInvalidDomain,
          some (.invalidInput "Example.com".toList)⟩, [], []⟩) ∧
      Parse sampleLib "Example.com".toList =
        .ok ⟨"Example.com".toList, "example".toList, "com".toList, true, false⟩ :=
  ⟨(Lookup_upper sampleLib (fun _ _ => .ok "No match".toList) sampleClient
      "Example.com".toList (by decide) (by decide)).1,
    (Lookup_upper sampleLib (fun _ _ => .ok "No match".toList) sampleClient
      "Example.com".toList (by decide) (by decide)).2.1,
    (Lookup_upper sampleLib (fun _ _ => .ok "No match".toList) sampleClient
      "Example.com".toList (by decide) (by decide)).2.2 (by decide)
      ⟨"example.com".toList, "example".toList, "com".toList, true, false⟩ (by decide)⟩

/-! ## Construction of the directory (C16) -/

theorem host_kept_iff (kv : Str × ZoneConfig) :
    decide (len kv.2.Host > 0) = true ↔ kv.2.Host ≠ [] := by
  rw [decide_eq_true_eq]
  constructor
  · intro h e
    rw [e] at h
    exact absurd h (by decide)
  · intro h
    have := (len_eq_zero_iff kv.2.Host).not.2 h
    omega

/-- C16: from a decoded configuration, `ParseConfigFromFile` fails with
`ErrEmptyZoneConfig` exactly when no zone entry has a non-empty host; otherwise
it returns a directory that holds exactly the zone entries with a non-empty
host, unchanged, has at least one entry, and keeps the keys distinct. -/
theorem ParseConfigFromFile_directory {δ : Type} (readFile : Str → Except Str δ)
    (unmarshal : δ → Except Str RawConfig) (path : Str) (data : δ) (raw : RawConfig)
    (hread : readFile path = .ok data) (hdec : unmarshal data = .ok raw) :
    (ParseConfigFromFile readFile unmarshal path = .error (.sentinel .ErrEmptyZoneConfig) ↔
      ∀ kv ∈ raw.Zones, kv.2.Host = []) ∧
    ((∃ kv ∈ raw.Zones, kv.2.Host ≠ []) →
      ∃ p, ParseConfigFromFile readFile unmarshal path = .ok p ∧
        (∀ kv, kv ∈ p.tldServers ↔ kv ∈ raw.Zones ∧ kv.2.Host ≠ []) ∧
        p.tldServers ≠ [] ∧ (∀ kv ∈ p.tldServers, kv.2.Host ≠ []) ∧
        ((raw.Zones.map Prod.fst).Nodup → (p.tldServers.map Prod.fst).Nodup)) := by
  have hmem : ∀ kv, kv ∈ raw.Zones.filter (fun kv => decide (len kv.2.Host > 0)) ↔
      kv ∈ raw.Zones ∧ kv.2.Host ≠ [] := by
    intro kv
    rw [List.mem_filter, host_kept_iff]
  by_cases hall : ∀ kv ∈ raw.Zones, kv.2.Host = []
  · have hnil : raw.Zones.filter (fun kv => decide (len kv.2.Host > 0)) = [] := by
      apply List.eq_nil_iff_forall_not_mem.2
      intro kv hkv
      exact ((hmem kv).1 hkv).2 (hall kv ((hmem kv).1 hkv).1)
    have hrun : ParseConfigFromFile readFile unmarshal path =
        .error (.sentinel .ErrEmptyZoneConfig) := by
      simp only [ParseConfigFromFile, hread, hdec, hnil]
      rfl
    constructor
    · exact ⟨fun _ => hall, fun _ => hrun⟩
    · rintro ⟨kv, hkv, hne⟩
      exact absurd (hall kv hkv) hne
  · have hex : ∃ kv ∈ raw.Zones, kv.2.Host ≠ [] := by
      by_contra hcon
      apply hall
      intro kv hkv
      by_contra h
      exact hcon ⟨kv, hkv, h⟩
    have hne : raw.Zones.filter (fun kv => decide (len kv.2.Host > 0)) ≠ [] := by
      obtain ⟨kv, hkv, hh⟩ := hex
      exact List.ne_nil_of_mem ((hmem kv).2 ⟨hkv, hh⟩)
    have hlen : ((raw.Zones.filter (fun kv => decide (len kv.2.Host > 0))).length == 0) =
        false := by
      cases hf : raw.Zones.filter (fun kv => decide (len kv.2.Host > 0)) with
      | nil => exact absurd hf hne
      | cons a t => rfl
    have hrun : ParseConfigFromFile readFile unmarshal path =
        .ok ⟨raw.Zones.filter (fun kv => decide (len kv.2.Host > 0)),
          if len raw.IP.Host > 0 then some raw.IP else none⟩ := by
      simp only [ParseConfigFromFile, hread, hdec, hlen, Bool.false_eq_true, if_false]
    constructor
    · rw [hrun]
      constructor
      · intro h; cases h
      · intro h; exact absurd h hall
    · intro _
      refine ⟨_, hrun, hmem, hne, fun kv hkv => ((hmem kv).1 hkv).2, ?_⟩
      intro nd
      exact nd.sublist ((List.filter_sublist _).map Prod.fst)

/-- Witness of `ParseConfigFromFile_directory` (C16): a configuration with one
usable zone and one zone without host, and a configuration without any usable
zone. -/
theorem ParseConfigFromFile_directory_witness :
    (∃ p, ParseConfigFromFile (fun _ => Except.ok ()) (fun _ => Except.ok
          ⟨[("com".toList, ⟨"whois.verisign-grs.com".toList, []⟩),
            ("test".toList, ⟨[], "$addr\r\n".toList⟩)], ⟨[], []⟩⟩)
          "./servers.json".toList = .ok p ∧
        (∀ kv, kv ∈ p.tldServers ↔
          kv ∈ [("com".toList, (⟨"whois.verisign-grs.com".toList, []⟩ : ZoneConfig)),
            ("test".toList, ⟨[], "$addr\r\n".toList⟩)] ∧ kv.2.Host ≠ []) ∧
        p.tldServers ≠ [] ∧ (∀ kv ∈ p.tldServers, kv.2.Host ≠ []) ∧
        ((List.map Prod.fst
            [("com".toList, (⟨"whois.verisign-grs.com".toList, []⟩ : ZoneConfig)),
              ("test".toList, ⟨[], "$addr\r\n".toList⟩)]).Nodup →
          (p.tldServers.map Prod.fst).Nodup)) ∧
      ParseConfigFromFile (fun _ => Except.ok ()) (fun _ => Except.ok
          ⟨[("test".toList, ⟨[], "$addr\r\n".toList⟩)], ⟨"whois.arin.net".toList, []⟩⟩)
          "./servers.json".toList = .error (.sentinel .ErrEmptyZoneConfig) :=
  ⟨(ParseConfigFromFile_directory (fun _ => Except.ok ()) (fun _ => Except.ok
        ⟨[("com".toList, ⟨"whois.verisign-grs.com".toList, []⟩),
          ("test".toList, ⟨[], "$addr\r\n".toList⟩)], ⟨[], []⟩⟩)
        "./servers.json".toList () _ rfl rfl).2
      ⟨("com".toList, ⟨"whois.verisign-grs.com".toList, []⟩), by simp, by decide⟩,
    (ParseConfigFromFile_directory (fun _ => Except.ok ()) (fun _ => Except.ok
        ⟨[("test".toList, ⟨[], "$addr\r\n".toList⟩)], ⟨"whois.arin.net".toList, []⟩⟩)
        "./servers.json".toList () _ rfl rfl).1.2
      (by
        intro kv hkv
        rw [List.mem_singleton] at hkv
        subst hkv
        rfl)⟩

/-! ## The response cap (C17) -/

/-- C17: over a connection that opens, takes the deadline and the query, and
whose stream ends normally, `Resolve` with `maxResponse > 0` succeeds; on a
stream longer than `maxResponse` it returns its first `maxResponse` bytes, and
on a stream of at most `maxResponse` bytes the whole stream. -/
theorem Resolve_cap {β : Type} (dial : Str → Int → Except Str (Conn β))
    (port maxResponse : Int) (domain : Domain) (server : ZoneConfig) (conn : Conn β)
    (hdial : dial server.Host port = .ok conn) (hdl : conn.SetDeadline = none)
    (hw : conn.Write (buildQuery server domain.String) = none)
    (heof : conn.reader.ending = .eof) (hmax : 0 < maxResponse) :
    (maxResponse < (conn.reader.stream.length : Int) →
      Resolve dial port maxResponse domain server =
          .ok (conn.reader.stream.take maxResponse.toNat) ∧
        ((conn.reader.stream.take maxResponse.toNat).length : Int) = maxResponse) ∧
    ((conn.reader.stream.length : Int) ≤ maxResponse →
      Resolve dial port maxResponse domain server = .ok conn.reader.stream) := by
  have hrun : Resolve dial port maxResponse domain server =
      .ok (conn.reader.stream.take maxResponse.toNat) := by
    simp only [Resolve, hdial, hdl, hw, ReadAll, LimitReader, heof]
    split_ifs <;> rfl
  constructor
  · intro h
    refine ⟨hrun, ?_⟩
    rw [List.length_take]
    omega
  · intro h
    rw [hrun, List.take_of_length_le (by omega)]

/-- Witness of `Resolve_cap` (C17): a stream of five bytes under a cap of three
and under a cap of eight. -/
theorem Resolve_cap_witness :
    Resolve (fun _ _ => .ok ⟨none, fun _ => none, ⟨[1, 2, 3, 4, 5], .eof⟩⟩) 43 3
        ⟨[], "example".toList, "com".toList, true, false⟩
        ⟨"whois.verisign-grs.com".toList, []⟩ = .ok ([1, 2, 3] : List Nat) ∧
      Resolve (fun _ _ => .ok ⟨none, fun _ => none, ⟨[1, 2, 3, 4, 5], .eof⟩⟩) 43 8
        ⟨[], "example".toList, "com".toList, true, false⟩
        ⟨"whois.verisign-grs.com".toList, []⟩ = .ok ([1, 2, 3, 4, 5] : List Nat) :=
  ⟨((Resolve_cap (fun _ _ => .ok ⟨none, fun _ => none, ⟨[1, 2, 3, 4, 5], .eof⟩⟩) 43 3
      ⟨[], "example".toList, "com".toList, true, false⟩
      ⟨"whois.verisign-grs.com".toList, []⟩
      ⟨none, fun _ => none, ⟨([1, 2, 3, 4, 5] : List Nat), .eof⟩⟩ rfl rfl rfl rfl
      (by decide)).1 (by decide)).1,
    (Resolve_cap (fun _ _ => .ok ⟨none, fun _ => none, ⟨[1, 2, 3, 4, 5], .eof⟩⟩) 43 8
      ⟨[], "example".toList, "com".toList, true, false⟩
      ⟨"whois.verisign-grs.com".toList, []⟩
      ⟨none, fun _ => none, ⟨([1, 2, 3, 4, 5] : List Nat), .eof⟩⟩ rfl rfl rfl rfl
      (by decide)).2 (by decide)⟩

/-! ## No host is queried twice (C20) -/

/-- The calls made so far stay the first calls of the run. -/
theorem countedLoop_calls_prefix (L : Lib) (resolve : ZoneConfig → Except GoError Str) :
    ∀ (n : Nat) (visited : List Str) (server : ZoneConfig) (calls : List ZoneConfig),
      calls <+: (countedLoop L resolve n visited server calls).Calls := by
  intro n
  induction n with
  | zero =>
    intro visited server calls
    exact List.prefix_refl _
  | succ n ih =>
    intro visited server calls
    unfold countedLoop
    by_cases hv : server.Host ∈ visited
    · simp only [hv, if_true]
      exact List.prefix_refl _
    · simp only [hv, if_false]
      cases hr : resolve server with
      | error e => exact List.prefix_append _ _
      | ok raw =>
        simp only []
        split_ifs
        · exact List.prefix_append _ _
        · exact (List.prefix_append _ _).trans (ih _ _ _)

/-- A server that passes the two tests of the loop is called. -/
theorem resolveLoop_calls_next (L : Lib) (maxFollow : Int)
    (resolve : ZoneConfig → Except GoError Str) (fuel : Nat) (i : Int)
    (visited : List Str) (server : ZoneConfig) (calls : List ZoneConfig) (run : Run)
    (hi : i ≤ maxFollow) (hv : server.Host ∉ visited)
    (hrun : resolveLoop L maxFollow resolve fuel i visited server calls = some run) :
    calls ++ [server] <+: run.Calls := by
  cases fuel with
  | zero => simp [resolveLoop] at hrun
  | succ fuel =>
    rw [resolveLoop] at hrun
    simp only [hi, if_true, hv, if_false] at hrun
    cases hr : resolve server with
    | error e =>
      simp only [hr, Option.some.injEq] at hrun
      rw [← hrun]
    | ok raw =>
      simp only [hr] at hrun
      by_cases ht : (FindReferralServer raw == [] ||
          EqualFold L (FindReferralServer raw) server.Host) = true
      · simp only [ht, if_true, Option.some.injEq] at hrun
        rw [← hrun]
      · simp only [ht, if_false] at hrun
        obtain ⟨n, hn⟩ := resolveLoop_counted L maxFollow resolve _ _ _ _ _ run hrun
        rw [hn]
        exact countedLoop_calls_prefix L resolve _ _ _ _

/-- The hosts of the calls of a run are pairwise distinct, when those of the
calls made so far are and all of them are in the visited set. -/
theorem countedLoop_nodup (L : Lib) (resolve : ZoneConfig → Except GoError Str) :
    ∀ (n : Nat) (visited : List Str) (server : ZoneConfig) (calls : List ZoneConfig),
      (calls.map ZoneConfig.Host).Nodup → (∀ z ∈ calls, z.Host ∈ visited) →
      ((countedLoop L resolve n visited server calls).Calls.map ZoneConfig.Host).Nodup := by
  intro n
  induction n with
  | zero =>
    intro visited server calls nd _
    exact nd
  | succ n ih =>
    intro visited server calls nd hvis
    have hext : server.Host ∉ visited →
        ((calls ++ [server]).map ZoneConfig.Host).Nodup := by
      intro hv
      rw [List.map_append, List.nodup_append]
      refine ⟨nd, by simp, ?_⟩
      intro a ha hb
      rw [List.map_singleton, List.mem_singleton] at hb
      subst hb
      obtain ⟨z, hz, hzh⟩ := List.mem_map.1 ha
      exact hv (hzh ▸ hvis z hz)
    unfold countedLoop
    by_cases hv : server.Host ∈ visited
    · simp only [hv, if_true]
      exact nd
    · simp only [hv, if_false]
      cases hr : resolve server with
      | error e => exact hext hv
      | ok raw =>
        simp only []
        split_ifs
        · exact hext hv
        · apply ih _ _ _ (hext hv)
          intro z hz
          rcases List.mem_append.1 hz with h | h
          · exact List.mem_cons_of_mem _ (hvis z h)
          · rw [List.mem_singleton] at h
            subst h
            exact List.mem_cons_self _ _

/-- C20: in one call of `ResolveWithReferrals` the hosts passed to `Resolve` are
pairwise distinct as strings; the call returns, with `maxFollow` below the
largest `int`, as soon as the bound on the loop is above `maxFollow + 1`; hosts
that differ in letter case only are distinct: when `whois.a.net` refers to
`whois.b.net` and that to `WHOIS.A.NET`, with `maxFollow >= 2`, the first three
attempts are on these three hosts. -/
theorem ResolveWithReferrals_distinct (L : Lib) (maxFollow : Int)
    (resolve : ZoneConfig → Except GoError Str) (server : ZoneConfig) :
    (∀ (fuel : Nat) (run : Run),
      ResolveWithReferrals L maxFollow resolve server fuel = some run →
      (run.Calls.map ZoneConfig.Host).Nodup) ∧
    (maxFollow < maxInt → ∀ fuel : Nat, (maxFollow + 1).toNat < fuel →
      ∃ run, ResolveWithReferrals L maxFollow resolve server fuel = some run) ∧
    (2 ≤ maxFollow → server.Host = "whois.a.net".toList →
      ∀ raw1 raw2, resolve server = .ok raw1 →
        FindReferralServer raw1 = "whois.b.net".toList →
        resolve ⟨"whois.b.net".toList, []⟩ = .ok raw2 →
        FindReferralServer raw2 = "WHOIS.A.NET".toList →
        ∀ (fuel : Nat) (run : Run),
          ResolveWithReferrals L maxFollow resolve server fuel = some run →
          run.Calls.take 3 =
            [server, ⟨"whois.b.net".toList, []⟩, ⟨"WHOIS.A.NET".toList, []⟩]) := by
  refine ⟨?_, ?_, ?_⟩
  · intro fuel run hrun
    obtain ⟨n, hn⟩ := resolveLoop_counted L maxFollow resolve fuel 0 [] server [] run hrun
    rw [hn]
    exact countedLoop_nodup L resolve _ [] server [] (by simp) (by intro z hz; cases hz)
  · intro hmax fuel hfuel
    exact resolveLoop_returns L maxFollow resolve hmax fuel 0 [] server [] (le_refl 0)
      (by simpa using hfuel)
  · intro hmax hhost raw1 raw2 h1 hf1 h2 hf2 fuel run hrun
    let s : Nat → ZoneConfig := fun i =>
      if i = 0 then server
      else if i = 1 then ⟨"whois.b.net".toList, []⟩ else ⟨"WHOIS.A.NET".toList, []⟩
    have hf : ∀ i, i < 2 → Follows L resolve (s i) (s (i + 1)) := by
      intro i hi
      interval_cases i
      · refine ⟨raw1, h1, ?_, ?_, ?_⟩
        · rw [hf1]; decide
        · show EqualFold L (FindReferralServer raw1) server.Host = false
          rw [hf1, hhost]; rfl
        · show (⟨"whois.b.net".toList, []⟩ : ZoneConfig) = ⟨FindReferralServer raw1, []⟩
          rw [hf1]
      · refine ⟨raw2, h2, ?_, ?_, ?_⟩
        · rw [hf2]; decide
        · show EqualFold L (FindReferralServer raw2) "whois.b.net".toList = false
          rw [hf2]; rfl
        · show (⟨"WHOIS.A.NET".toList, []⟩ : ZoneConfig) = ⟨FindReferralServer raw2, []⟩
          rw [hf2]
    have hd : ∀ i j, i < 2 → j < 2 → (s i).Host = (s j).Host → i = j := by
      intro i j hi hj hij
      interval_cases i <;> interval_cases j
      · rfl
      · exfalso
        have : server.Host = "whois.b.net".toList := hij
        rw [hhost] at this
        exact absurd this (by decide)
      · exfalso
        have : "whois.b.net".toList = server.Host := hij
        rw [hhost] at this
        exact absurd this (by decide)
      · rfl
    have hint2 : (2 : Int) ≤ maxInt := by decide
    by_cases hfu : 2 ≤ fuel
    · obtain ⟨n, hn⟩ : ∃ n, fuel = n + 2 := ⟨fuel - 2, by omega⟩
      have hchain := resolveLoop_chain L maxFollow resolve s 2 n 0 [] [] hf
        (fun i _ hmem => by cases hmem) hd (le_refl 0) (by simpa using hint2)
        (fun j hj => by omega)
      have hnv : (s 2).Host ∉
          ((List.range 2).map fun i => (s i).Host).reverse ++ [] := by
        have e : ((List.range 2).map fun i => (s i).Host).reverse ++ [] =
            ["whois.b.net".toList, server.Host] := rfl
        rw [e, hhost]
        show "WHOIS.A.NET".toList ∉ ["whois.b.net".toList, "whois.a.net".toList]
        decide
      have hrun2 : resolveLoop L maxFollow resolve (n + 2) 0 [] (s 0) [] = some run := by
        rw [← hn]
        exact hrun
      rw [hchain] at hrun2
      have hpre := resolveLoop_calls_next L maxFollow resolve n _ _ (s 2)
        ([] ++ (List.range 2).map s) run (by simpa using hmax) hnv hrun2
      obtain ⟨t, ht⟩ := hpre
      rw [← ht]
      rfl
    · exfalso
      have hchain := resolveLoop_chain L maxFollow resolve s fuel 0 0 [] []
        (fun j hj => hf j (by omega)) (fun i _ hmem => by cases hmem)
        (fun a b ha hb => hd a b (by omega) (by omega)) (le_refl 0)
        (by have : (fuel : Int) ≤ 2 := by omega
            omega)
        (fun j hj => by omega)
      have hrun2 : resolveLoop L maxFollow resolve (0 + fuel) 0 [] (s 0) [] = some run := by
        rw [Nat.zero_add]
        exact hrun
      rw [hchain] at hrun2
      simp [resolveLoop] at hrun2

/-- Witness of `ResolveWithReferrals_distinct` (C20): the chain `whois.a.net`,
`whois.b.net`, `WHOIS.A.NET` with `maxFollow = 2` makes three attempts. -/
theorem ResolveWithReferrals_distinct_witness :
    ResolveWithReferrals sampleLib 2
        (fun z => if z.Host = "whois.a.net".toList then .ok "Whois Server: whois.b.net".toList
          else if z.Host = "whois.b.net".toList then .ok "Whois Server: WHOIS.A.NET".toList
          else .ok "No match".toList)
        ⟨"whois.a.net".toList, []⟩ 4 =
      some ⟨"No match".toList, "WHOIS.A.NET".toList, none,
        [⟨"whois.a.net".toList, []⟩, ⟨"whois.b.net".toList, []⟩,
          ⟨"WHOIS.A.NET".toList, []⟩]⟩ ∧
      [(⟨"whois.a.net".toList, []⟩ : ZoneConfig), ⟨"whois.b.net".toList, []⟩,
          ⟨"WHOIS.A.NET".toList, []⟩].take 3 =
        [⟨"whois.a.net".toList, []⟩, ⟨"whois.b.net".toList, []⟩,
          ⟨"WHOIS.A.NET".toList, []⟩] :=
  ⟨by decide,
    (ResolveWithReferrals_distinct sampleLib 2
      (fun z => if z.Host = "whois.a.net".toList then .ok "Whois Server: whois.b.net".toList
        else if z.Host = "whois.b.net".toList then .ok "Whois Server: WHOIS.A.NET".toList
        else .ok "No match".toList)
      ⟨"whois.a.net".toList, []⟩).2.2 (by decide) rfl
      "Whois Server: whois.b.net".toList "Whois Server: WHOIS.A.NET".toList
      rfl (by decide) rfl (by decide) 4
      ⟨"No match".toList, "WHOIS.A.NET".toList, none,
        [⟨"whois.a.net".toList, []⟩, ⟨"whois.b.net".toList, []⟩,
          ⟨"WHOIS.A.NET".toList, []⟩]⟩ (by decide)⟩

/-! ## Referral detection (C14) -/

theorem reValue_eq_none (r : Str) (h : ∀ t, r ≠ ':' :: t) : reValue r = none := by
  unfold reValue
  split
  · rename_i t
    exact absurd rfl (h t)
  · rfl

theorem reLine_none_of_not_label (t : Str) (h : beginsWithLabel t = false) :
    reLine t = none := by
  unfold beginsWithLabel at h
  unfold reLine
  have h1 : (reLit "Whois Server".toList t).bind reValue = none := by
    cases hw : reLit "Whois Server".toList t with
    | none => rfl
    | some r =>
      rw [hw] at h
      apply reValue_eq_none
      intro t2 e
      subst e
      simp at h
  have h2 : (reLit "ReferralServer".toList t).bind reValue = none := by
    cases hw : reLit "ReferralServer".toList t with
    | none => rfl
    | some r =>
      apply reValue_eq_none
      intro t2 e
      subst e
      rw [hw] at h
      split at h <;> simp at h
  rw [h1, h2]

/-- The search finds nothing when no line start ahead begins with a label. -/
theorem reFind_none (q : Str) :
    ∀ bol : Bool, (bol = true → beginsWithLabel q = false) →
      (∀ p2 q2, q = p2 ++ q2 → p2.getLast? = some '\n' → beginsWithLabel q2 = false) →
      reFind bol q = none := by
  induction q with
  | nil =>
    intro bol _ _
    cases bol <;> rfl
  | cons c t ih =>
    intro bol h1 h2
    have hline : (if bol = true then reLine (c :: t) else none) = none := by
      cases bol with
      | false => rfl
      | true => simpa using reLine_none_of_not_label _ (h1 rfl)
    rw [reFind, hline]
    apply ih
    · intro hc
      apply h2 [c] t rfl
      simpa using hc
    · intro p2 q2 e hl
      apply h2 (c :: p2) q2 (by rw [e]; rfl)
      cases p2 with
      | nil => simp at hl
      | cons a p3 => simpa using hl

theorem reStar_some (x : Char → Bool) (k : Str → Option Str) (v : Str) :
    ∀ t, reStar x k t = some v → ∃ w r, t = w ++ r ∧ k r = some v := by
  intro t
  induction t with
  | nil =>
    intro h
    exact ⟨[], [], rfl, by simpa [reStar] using h⟩
  | cons c t ih =>
    intro h
    rw [reStar] at h
    by_cases hc : x c = true
    · simp only [hc, if_true] at h
      cases hs : reStar x k t with
      | none =>
        rw [hs] at h
        exact ⟨[], c :: t, rfl, h⟩
      | some v2 =>
        rw [hs] at h
        simp only [Option.some.injEq] at h
        subst h
        obtain ⟨w, r, e, hk⟩ := ih hs
        exact ⟨c :: w, r, by rw [e]; rfl, hk⟩
    · simp only [hc, Bool.false_eq_true, if_false] at h
      exact ⟨[], c :: t, rfl, h⟩

theorem reStarCap_some (x : Char → Bool) (k : Str → Str → Option Str) (v : Str) :
    ∀ u acc, reStarCap x k acc u = some v →
      ∃ u1 u2, u = u1 ++ u2 ∧ (∀ c ∈ u1, x c = true) ∧ k (acc ++ u1) u2 = some v := by
  intro u
  induction u with
  | nil =>
    intro acc h
    exact ⟨[], [], rfl, by simp, by simpa [reStarCap] using h⟩
  | cons c t ih =>
    intro acc h
    rw [reStarCap] at h
    by_cases hc : x c = true
    · simp only [hc, if_true] at h
      cases hs : reStarCap x k (acc ++ [c]) t with
      | none =>
        rw [hs] at h
        exact ⟨[], c :: t, rfl, by simp, by simpa using h⟩
      | some v2 =>
        rw [hs] at h
        simp only [Option.some.injEq] at h
        subst h
        obtain ⟨u1, u2, e, hx, hk⟩ := ih _ hs
        refine ⟨c :: u1, u2, by rw [e]; rfl, ?_, by simpa using hk⟩
        intro d hd
        rcases List.mem_cons.1 hd with rfl | hd2
        · exact hc
        · exact hx d hd2
    · simp only [hc, Bool.false_eq_true, if_false] at h
      exact ⟨[], c :: t, rfl, by simp, by simpa using h⟩

/-- What the part `([^\s]+)\s*$` captures is a non-empty run without `\s`. -/
theorem reHost_some (t v : Str) (h : reHost t = some v) :
    v ≠ [] ∧ ∀ c ∈ v, reSpace c = false := by
  unfold reHost at h
  cases t with
  | nil => simp [rePlusCap] at h
  | cons c t =>
    rw [rePlusCap] at h
    by_cases hc : (!reSpace c) = true
    · simp only [hc, if_true] at h
      obtain ⟨u1, u2, _, hx, hk⟩ := reStarCap_some _ _ v t [c] h
      obtain ⟨w, r, _, hr⟩ := reStar_some _ _ v u2 hk
      split_ifs at hr
      simp only [Option.some.injEq] at hr
      subst hr
      refine ⟨by simp, ?_⟩
      intro d hd
      rcases List.mem_append.1 hd with h1 | h1
      · rw [List.mem_singleton] at h1
        subst h1
        simpa using hc
      · simpa using hx d h1
    · simp only [hc, Bool.false_eq_true, if_false] at h
      cases h

theorem reTarget_some (t v : Str) (h : reTarget t = some v) :
    v ≠ [] ∧ ∀ c ∈ v, reSpace c = false := by
  unfold reTarget at h
  cases hs : (reLit "whois://".toList t).bind reHost with
  | some v2 =>
    rw [hs] at h
    simp only [Option.some.injEq] at h
    subst h
    cases hl : reLit "whois://".toList t with
    | none =>
      rw [hl] at hs
      simp at hs
    | some r =>
      rw [hl] at hs
      exact reHost_some r _ hs
  | none =>
    rw [hs] at h
    exact reHost_some t v h

theorem reLine_some (t v : Str) (h : reLine t = some v) :
    beginsWithLabel t = true ∧ v ≠ [] ∧ ∀ c ∈ v, reSpace c = false := by
  constructor
  · cases hb : beginsWithLabel t with
    | true => rfl
    | false =>
      rw [reLine_none_of_not_label t hb] at h
      cases h
  · have key : ∀ r, reValue r = some v → v ≠ [] ∧ ∀ c ∈ v, reSpace c = false := by
      intro r hr
      unfold reValue at hr
      split at hr
      · obtain ⟨w, r2, _, hk⟩ := reStar_some _ _ v _ hr
        exact reTarget_some r2 v hk
      · cases hr
    unfold reLine at h
    cases hs : (reLit "Whois Server".toList t).bind reValue with
    | some v2 =>
      rw [hs] at h
      simp only [Option.some.injEq] at h
      subst h
      cases hl : reLit "Whois Server".toList t with
      | none =>
        rw [hl] at hs
        simp at hs
      | some r =>
        rw [hl] at hs
        exact key r hs
    | none =>
      rw [hs] at h
      cases hl : reLit "ReferralServer".toList t with
      | none =>
        rw [hl] at h
        simp at h
      | some r =>
        rw [hl] at h
        exact key r h

theorem reFind_some (q v : Str) :
    ∀ bol, reFind bol q = some v → v ≠ [] ∧ ∀ c ∈ v, reSpace c = false := by
  induction q with
  | nil =>
    intro bol h
    cases bol with
    | false => simp [reFind] at h
    | true =>
      have : reLine [] = some v := by simpa [reFind] using h
      exact (reLine_some [] v this).2
  | cons c t ih =>
    intro bol h
    rw [reFind] at h
    cases hl : (if bol = true then reLine (c :: t) else none) with
    | some v2 =>
      rw [hl] at h
      simp only [Option.some.injEq] at h
      subst h
      cases bol with
      | false => simp at hl
      | true =>
        have : reLine (c :: t) = some v2 := by simpa using hl
        exact (reLine_some _ _ this).2
    | none =>
      rw [hl] at h
      exact ih _ h

theorem bind_some_eq {α β : Type} (a : α) (f : α → Option β) : (some a).bind f = f a := rfl

theorem bind_none_eq {α β : Type} (f : α → Option β) : (none : Option α).bind f = none := rfl

theorem head?_dropWhile_false {α : Type} (p : α → Bool) (l : List α) (c : α)
    (h : (l.dropWhile p).head? = some c) : p c = false := by
  have := List.head?_dropWhile_not p l
  rw [h] at this
  exact this

/-- The trimmed string has no white space at either end. -/
theorem TrimSpace_ends (s : Str) (c : Char) :
    ((TrimSpace s).head? = some c → isSpace c = false) ∧
      ((TrimSpace s).getLast? = some c → isSpace c = false) := by
  constructor
  · intro h
    obtain ⟨u, hu⟩ := List.rdropWhile_prefix isSpace (l := s.dropWhile isSpace)
    apply head?_dropWhile_false isSpace s c
    rw [← hu, List.head?_append]
    unfold TrimSpace at h
    rw [h]
    rfl
  · intro h
    unfold TrimSpace List.rdropWhile at h
    rw [List.getLast?_reverse] at h
    exact head?_dropWhile_false isSpace _ c h

theorem reLit_of_lower :
    ∀ (p lab X : Str), p.map asciiLower = lab.map asciiLower → reLit p (lab ++ X) = some X := by
  intro p
  induction p with
  | nil =>
    intro lab X h
    have : lab = [] := by simpa using h.symm
    subst this
    cases X <;> rfl
  | cons q ps ih =>
    intro lab X h
    cases lab with
    | nil => simp at h
    | cons c t =>
      simp only [List.map_cons, List.cons.injEq] at h
      have hf : reFold q c = true := by simp [reFold, h.1]
      simp only [List.cons_append, reLit, hf, if_true]
      exact ih t X h.2

theorem reLit_append_some :
    ∀ (p t r u : Str), reLit p t = some r → reLit p (t ++ u) = some (r ++ u) := by
  intro p
  induction p with
  | nil =>
    intro t r u h
    have : t = r := by cases t <;> simpa [reLit] using h
    subst this
    cases h2 : t ++ u <;> rfl
  | cons q ps ih =>
    intro t r u h
    cases t with
    | nil => simp [reLit] at h
    | cons c t2 =>
      rw [reLit] at h
      by_cases hf : reFold q c = true
      · simp only [hf, if_true] at h
        simp only [List.cons_append, reLit, hf, if_true]
        exact ih t2 r u h
      · simp only [hf, Bool.false_eq_true, if_false] at h
        cases h

theorem reLit_append_none :
    ∀ (p t u : Str), reLit p t = none →
      (u = [] ∨ ∃ c u2, u = c :: u2 ∧ ∀ q ∈ p, reFold q c = false) →
      reLit p (t ++ u) = none := by
  intro p
  induction p with
  | nil =>
    intro t u h
    cases t <;> simp [reLit] at h
  | cons q ps ih =>
    intro t u h hu
    cases t with
    | nil =>
      rcases hu with rfl | ⟨c, u2, rfl, hq⟩
      · rfl
      · simp [reLit, hq q (by simp)]
    | cons c t2 =>
      rw [reLit] at h
      by_cases hf : reFold q c = true
      · simp only [hf, if_true] at h
        simp only [List.cons_append, reLit, hf, if_true]
        apply ih t2 u h
        rcases hu with rfl | ⟨d, u2, rfl, hq⟩
        · exact Or.inl rfl
        · exact Or.inr ⟨d, u2, rfl, fun x hx => hq x (List.mem_cons_of_mem _ hx)⟩
      · simp only [Bool.not_eq_true] at hf
        simp [reLit, hf]

theorem reLit_mem : ∀ (p t r : Str), reLit p t = some r → ∀ c ∈ r, c ∈ t := by
  intro p
  induction p with
  | nil =>
    intro t r h
    have : t = r := by cases t <;> simpa [reLit] using h
    subst this
    exact fun c hc => hc
  | cons q ps ih =>
    intro t r h
    cases t with
    | nil => simp [reLit] at h
    | cons c t2 =>
      rw [reLit] at h
      by_cases hf : reFold q c = true
      · simp only [hf, if_true] at h
        exact fun d hd => List.mem_cons_of_mem _ (ih t2 r h d hd)
      · simp only [hf, Bool.false_eq_true, if_false] at h
        cases h

/-- No character of the class `\s` folds to a character of the scheme. -/
theorem scheme_not_space (c : Char) (h : reSpace c = true) :
    ∀ q ∈ "whois://".toList, reFold q c = false := by
  simp only [reSpace, Bool.or_eq_true, beq_iff_eq] at h
  rcases h with (((rfl | rfl) | rfl) | rfl) | rfl <;> decide

theorem reStar_skip (x : Char → Bool) (k : Str → Option Str) (v : Str) :
    ∀ (w t : Str), (∀ c ∈ w, x c = true) →
      (t = [] ∨ ∃ c t2, t = c :: t2 ∧ x c = false) → k t = some v →
      reStar x k (w ++ t) = some v := by
  intro w
  induction w with
  | nil =>
    intro t _ ht hk
    rcases ht with rfl | ⟨c, t2, rfl, hc⟩
    · simpa [reStar] using hk
    · simp [reStar, hc, hk]
  | cons c w2 ih =>
    intro t hw ht hk
    have hc : x c = true := hw c (by simp)
    have := ih t (fun d hd => hw d (List.mem_cons_of_mem _ hd)) ht hk
    simp [reStar, hc, this]

theorem reStar_end_cases (x : Char → Bool) (host : Str) :
    ∀ t, reStar x (fun r => if reEnd r = true then some host else none) t = some host ∨
      reStar x (fun r => if reEnd r = true then some host else none) t = none := by
  intro t
  induction t with
  | nil =>
    rw [reStar]
    split_ifs
    · exact Or.inl rfl
    · exact Or.inr rfl
  | cons c t ih =>
    rw [reStar]
    by_cases hc : x c = true
    · simp only [hc, if_true]
      rcases ih with h | h
      · rw [h]; exact Or.inl rfl
      · rw [h]
        by_cases he : reEnd (c :: t) = true
        · simp [he]
        · simp [he]
    · simp only [hc, Bool.false_eq_true, if_false]
      by_cases he : reEnd (c :: t) = true
      · simp [he]
      · simp [he]

/-- The part `\s*$` matches white space followed by the end of a line. -/
theorem reStar_end (x : Char → Bool) (host : Str) :
    ∀ (w r : Str), (∀ c ∈ w, x c = true) → reEnd r = true →
      reStar x (fun r => if reEnd r = true then some host else none) (w ++ r) = some host := by
  intro w
  induction w with
  | nil =>
    intro r _ hr
    cases r with
    | nil => simp [reStar, hr]
    | cons c r2 =>
      rw [List.nil_append, reStar]
      by_cases hc : x c = true
      · simp only [hc, if_true]
        rcases reStar_end_cases x host r2 with h | h
        · rw [h]
        · rw [h]; simp [hr]
      · simp [hc, hr]
  | cons c w2 ih =>
    intro r hw hr
    have hc : x c = true := hw c (by simp)
    have := ih r (fun d hd => hw d (List.mem_cons_of_mem _ hd)) hr
    simp [reStar, hc, this]

theorem reStarCap_run_tail (x : Char → Bool) (k : Str → Str → Option Str) (v : Str) :
    ∀ (u acc tail : Str), (∀ c ∈ u, x c = true) →
      (tail = [] ∨ ∃ c t2, tail = c :: t2 ∧ x c = false) →
      k (acc ++ u) tail = some v → reStarCap x k acc (u ++ tail) = some v := by
  intro u
  induction u with
  | nil =>
    intro acc tail _ ht hk
    rcases ht with rfl | ⟨c, t2, rfl, hc⟩
    · simpa [reStarCap] using hk
    · simp only [List.nil_append, reStarCap, hc, Bool.false_eq_true, if_false]
      simpa using hk
  | cons c t ih =>
    intro acc tail hx ht hk
    have hc : x c = true := hx c (by simp)
    have := ih (acc ++ [c]) tail (fun d hd => hx d (List.mem_cons_of_mem _ hd)) ht
      (by simpa using hk)
    simp [reStarCap, hc, this]

/-- White space that runs up to the end of a line, or nothing, begins with a
character of `\s` unless it is empty. -/
theorem tail_head_space (ws2 rest : Str) (hws : ∀ c ∈ ws2, reSpace c = true)
    (hrest : reEnd rest = true) :
    ws2 ++ rest = [] ∨ ∃ c t2, ws2 ++ rest = c :: t2 ∧ reSpace c = true := by
  cases ws2 with
  | nil =>
    cases rest with
    | nil => exact Or.inl rfl
    | cons c r2 =>
      refine Or.inr ⟨c, r2, rfl, ?_⟩
      have : c = '\n' := by simpa [reEnd] using hrest
      subst this
      decide
  | cons c w2 => exact Or.inr ⟨c, w2 ++ rest, rfl, hws c (by simp)⟩

/-- A token followed by white space up to the end of its line is what the part
`([^\s]+)\s*$` captures. -/
theorem reHost_token (token ws2 rest : Str) (hne : token ≠ [])
    (htok : ∀ c ∈ token, reSpace c = false) (hws : ∀ c ∈ ws2, reSpace c = true)
    (hrest : reEnd rest = true) : reHost (token ++ (ws2 ++ rest)) = some token := by
  obtain ⟨c, u, rfl⟩ := List.exists_cons_of_ne_nil hne
  have hc : reSpace c = false := htok c (by simp)
  unfold reHost
  simp only [List.cons_append, rePlusCap, hc, Bool.not_false, if_true]
  apply reStarCap_run_tail
  · intro d hd
    simp [htok d (List.mem_cons_of_mem _ hd)]
  · rcases tail_head_space ws2 rest hws hrest with h | ⟨d, t2, h, hd⟩
    · exact Or.inl h
    · exact Or.inr ⟨d, t2, h, by simp [hd]⟩
  · exact reStar_end reSpace _ ws2 rest hws hrest

theorem reHost_space (tail : Str)
    (h : tail = [] ∨ ∃ c t2, tail = c :: t2 ∧ reSpace c = true) : reHost tail = none := by
  rcases h with rfl | ⟨c, t2, rfl, hc⟩
  · rfl
  · simp [reHost, rePlusCap, hc]

/-- The part `(?:whois://)?([^\s]+)\s*$` on a token followed by white space up
to the end of its line: the token without the scheme. -/
theorem reTarget_token (token ws2 rest : Str) (hne : token ≠ [])
    (htok : ∀ c ∈ token, reSpace c = false) (hws : ∀ c ∈ ws2, reSpace c = true)
    (hrest : reEnd rest = true) :
    reTarget (token ++ (ws2 ++ rest)) = some (stripScheme token) := by
  have hfull := reHost_token token ws2 rest hne htok hws hrest
  have htail := tail_head_space ws2 rest hws hrest
  unfold reTarget stripScheme
  cases hl : reLit "whois://".toList token with
  | none =>
    have : reLit "whois://".toList (token ++ (ws2 ++ rest)) = none := by
      apply reLit_append_none _ _ _ hl
      rcases htail with h | ⟨c, t2, h, hc⟩
      · exact Or.inl h
      · exact Or.inr ⟨c, t2, h, scheme_not_space c hc⟩
    rw [this]
    simpa using hfull
  | some r =>
    have happ := reLit_append_some _ _ _ (ws2 ++ rest) hl
    rw [happ]
    cases r with
    | nil =>
      have : reHost ([] ++ (ws2 ++ rest)) = none := reHost_space _ htail
      rw [bind_some_eq, this]
      exact hfull
    | cons d r2 =>
      have hr : reHost (d :: r2 ++ (ws2 ++ rest)) = some (d :: r2) :=
        reHost_token (d :: r2) ws2 rest (by simp)
          (fun c hc => htok c (reLit_mem _ _ _ hl c hc)) hws hrest
      rw [bind_some_eq, hr]

theorem stripScheme_ne_nil (token : Str) (hne : token ≠ []) : stripScheme token ≠ [] := by
  unfold stripScheme
  cases hl : reLit "whois://".toList token with
  | none => exact hne
  | some r =>
    cases r with
    | nil => exact hne
    | cons d r2 => exact List.cons_ne_nil d r2

/-- The part `:\s*(?:whois://)?([^\s]+)\s*$`. -/
theorem reValue_token (ws token ws2 rest : Str) (hwsp : ∀ c ∈ ws, reSpace c = true)
    (hne : token ≠ []) (htok : ∀ c ∈ token, reSpace c = false)
    (hws : ∀ c ∈ ws2, reSpace c = true) (hrest : reEnd rest = true) :
    reValue (':' :: (ws ++ (token ++ (ws2 ++ rest)))) = some (stripScheme token) := by
  simp only [reValue]
  apply reStar_skip reSpace reTarget _ ws _ hwsp
  · obtain ⟨c, u, rfl⟩ := List.exists_cons_of_ne_nil hne
    exact Or.inr ⟨c, u ++ (ws2 ++ rest), rfl, htok c (by simp)⟩
  · exact reTarget_token token ws2 rest hne htok hws hrest

theorem reLit_Whois_none (lab X : Str)
    (h : lab.map asciiLower = "referralserver".toList) :
    reLit "Whois Server".toList (lab ++ X) = none := by
  cases lab with
  | nil => simp at h
  | cons c t =>
    have hc : asciiLower c = 'r' := by
      have := congrArg List.head? h
      simpa using this
    have hW : asciiLower 'W' = 'w' := by decide
    show reLit ('W' :: "hois Server".toList) (c :: (t ++ X)) = none
    have e1 : ('w' == 'r') = false := by decide
    have e2 : ('w' == 's') = false := by decide
    have e3 : ('w' == 'k') = false := by decide
    have hf : reFold 'W' c = false := by
      simp only [reFold, hW, hc, e1, e2, e3, Bool.false_and, Bool.or_self]
    simp [reLit, hf]

/-- The whole pattern at the start of a line that is a label, a colon, white
space, a token and white space up to the end of the line. -/
theorem reLine_token (lab ws token ws2 rest : Str)
    (hlab : lab.map asciiLower = "whois server".toList ∨
      lab.map asciiLower = "referralserver".toList)
    (hwsp : ∀ c ∈ ws, reSpace c = true) (hne : token ≠ [])
    (htok : ∀ c ∈ token, reSpace c = false) (hws : ∀ c ∈ ws2, reSpace c = true)
    (hrest : reEnd rest = true) :
    reLine (lab ++ ':' :: (ws ++ (token ++ (ws2 ++ rest)))) = some (stripScheme token) := by
  have hv := reValue_token ws token ws2 rest hwsp hne htok hws hrest
  unfold reLine
  rcases hlab with h | h
  · rw [reLit_of_lower "Whois Server".toList lab _ (by rw [h]; decide), bind_some_eq, hv]
  · rw [reLit_Whois_none lab _ h,
      reLit_of_lower "ReferralServer".toList lab _ (by rw [h]; decide), bind_none_eq,
      bind_some_eq, hv]

/-- The search passes over lines that do not begin with a label. -/
theorem reFind_skip (t : Str) :
    ∀ (pre : Str) (bol : Bool),
      (bol = true → pre ≠ [] → beginsWithLabel (pre ++ t) = false) →
      (∀ p q, pre = p ++ q → q ≠ [] → p.getLast? = some '\n' →
        beginsWithLabel (q ++ t) = false) →
      ((pre = [] ∧ bol = true) ∨ pre.getLast? = some '\n') →
      reFind bol (pre ++ t) = reFind true t := by
  intro pre
  induction pre with
  | nil =>
    intro bol _ _ h3
    rcases h3 with ⟨_, hb⟩ | h
    · rw [hb]; rfl
    · simp at h
  | cons c p2 ih =>
    intro bol h1 h2 h3
    have hline : (if bol = true then reLine (c :: (p2 ++ t)) else none) = none := by
      cases bol with
      | false => rfl
      | true => simpa using reLine_none_of_not_label _ (h1 rfl (by simp))
    rw [List.cons_append, reFind, hline]
    apply ih
    · intro hc hp
      apply h2 [c] p2 rfl hp
      simpa using hc
    · intro p q e hq hl
      apply h2 (c :: p) q (by rw [e]; rfl) hq
      cases p with
      | nil => simp at hl
      | cons a p3 => simpa using hl
    · rcases h3 with ⟨h, _⟩ | h
      · cases h
      · cases p2 with
        | nil =>
          left
          refine ⟨rfl, ?_⟩
          simpa using h
        | cons a p3 =>
          right
          simpa using h

theorem reFind_of_reLine (t v : Str) (h : reLine t = some v) : reFind true t = some v := by
  cases t with
  | nil => simpa [reFind] using h
  | cons c t2 =>
    rw [reFind]
    simp [h]

theorem labelFree_sound (t : Str) :
    ∀ (pre : Str) (bol : Bool), labelFree bol pre t = true →
      (bol = true → pre ≠ [] → beginsWithLabel (pre ++ t) = false) ∧
      (∀ p q, pre = p ++ q → q ≠ [] → p.getLast? = some '\n' →
        beginsWithLabel (q ++ t) = false) := by
  intro pre
  induction pre with
  | nil =>
    intro bol _
    refine ⟨fun _ h => absurd rfl h, ?_⟩
    intro p q e hq _
    have : q = [] := (List.append_eq_nil.1 e.symm).2
    exact absurd this hq
  | cons c p2 ih =>
    intro bol h
    rw [labelFree, Bool.and_eq_true] at h
    obtain ⟨h1, h2⟩ := h
    obtain ⟨ih1, ih2⟩ := ih (c == '\n') h2
    constructor
    · intro hb _
      subst hb
      simpa using h1
    · intro p q e hq hl
      cases p with
      | nil => simp at hl
      | cons a p3 =>
        simp only [List.cons_append, List.cons.injEq] at e
        obtain ⟨rfl, rfl⟩ := e
        cases p3 with
        | nil =>
          have hc : (c == '\n') = true := by simpa using hl
          exact ih1 hc hq
        | cons b p4 =>
          apply ih2 (b :: p4) q rfl hq
          simpa using hl

theorem NoLabelLine_of_labelFree (data : Str) (h : labelFree true data [] = true) :
    NoLabelLine data := by
  obtain ⟨h1, h2⟩ := labelFree_sound [] data true h
  intro p q e hp
  cases q with
  | nil => rfl
  | cons c q2 =>
    rcases hp with rfl | hp
    · have := h1 rfl (by rw [e]; simp)
      rw [List.append_nil] at this
      rw [List.nil_append] at e
      rw [← e]
      exact this
    · have := h2 p (c :: q2) e (by simp) hp
      rwa [List.append_nil] at this

/-- C14, as written, fails: the line `Whois Server: whois.a.net (port 43)`
begins with the label, yet the pattern wants the token to end the line and
`FindReferralServer` returns the empty string; and on `Whois Server: ` followed
by a vertical tab the pattern matches, capturing the tab, which `TrimSpace`
removes, so the result is empty again. -/
theorem FindReferralServer_empty_on_label_line :
    beginsWithLabel "Whois Server: whois.a.net (port 43)".toList = true ∧
      FindReferralServer "Whois Server: whois.a.net (port 43)".toList = [] ∧
      reFind true "Whois Server: \x0b".toList = some ['\x0b'] ∧
      FindReferralServer "Whois Server: \x0b".toList = [] := by
  decide

/-- C14, amended: `FindReferralServer` returns the empty string when no line of
the text begins with `Whois Server:` or `ReferralServer:`, up to case; what it
returns holds no character of `\s` (tab, line feed, form feed, carriage return,
space) and has no white space at either end; and when the first line that begins
with a label is the label, a colon, white space, one token and white space up to
the end of the line, it returns that token without the scheme `whois://` and
trimmed, which is the token without the scheme when the token holds no white
space at all. -/
theorem FindReferralServer_spec :
    (∀ data, NoLabelLine data → FindReferralServer data = []) ∧
    (∀ data c, (c ∈ FindReferralServer data → reSpace c = false) ∧
      ((FindReferralServer data).head? = some c → isSpace c = false) ∧
      ((FindReferralServer data).getLast? = some c → isSpace c = false)) ∧
    (∀ pre lab ws token ws2 rest : Str,
      (pre = [] ∨ pre.getLast? = some '\n') →
      (∀ p q, pre = p ++ q → q ≠ [] → (p = [] ∨ p.getLast? = some '\n') →
        beginsWithLabel (q ++ (lab ++ ':' :: (ws ++ (token ++ (ws2 ++ rest))))) = false) →
      (lab.map asciiLower = "whois server".toList ∨
        lab.map asciiLower = "referralserver".toList) →
      (∀ c ∈ ws, reSpace c = true) → token ≠ [] → (∀ c ∈ token, reSpace c = false) →
      (∀ c ∈ ws2, reSpace c = true) → reEnd rest = true →
      FindReferralServer (pre ++ (lab ++ ':' :: (ws ++ (token ++ (ws2 ++ rest))))) =
          TrimSpace (stripScheme token) ∧
        ((∀ c ∈ token, isSpace c = false) →
          FindReferralServer (pre ++ (lab ++ ':' :: (ws ++ (token ++ (ws2 ++ rest))))) =
            stripScheme token ∧ stripScheme token ≠ [])) := by
  refine ⟨?_, ?_, ?_⟩
  · intro data h
    have : reFind true data = none :=
      reFind_none data true (fun _ => h [] data rfl (Or.inl rfl))
        (fun p2 q2 e hl => h p2 q2 e (Or.inr hl))
    simp [FindReferralServer, this]
  · intro data c
    unfold FindReferralServer
    cases hf : reFind true data with
    | none => simp
    | some host =>
      simp only []
      obtain ⟨_, hsp⟩ := reFind_some data host true hf
      exact ⟨fun hc => hsp c (mem_of_mem_TrimSpace host c hc), (TrimSpace_ends host c).1,
        (TrimSpace_ends host c).2⟩
  · intro pre lab ws token ws2 rest hpre hbefore hlab hws hne htok hws2 hrest
    have hline := reLine_token lab ws token ws2 rest hlab hws hne htok hws2 hrest
    have hskip := reFind_skip (lab ++ ':' :: (ws ++ (token ++ (ws2 ++ rest)))) pre true
      (fun _ hp => hbefore [] pre rfl hp (Or.inl rfl))
      (fun p q e hq hl => hbefore p q e hq (Or.inr hl))
      (by
        rcases hpre with h | h
        · exact Or.inl ⟨h, rfl⟩
        · exact Or.inr h)
    have hrun : FindReferralServer (pre ++ (lab ++ ':' :: (ws ++ (token ++ (ws2 ++ rest))))) =
        TrimSpace (stripScheme token) := by
      unfold FindReferralServer
      rw [hskip, reFind_of_reLine _ _ hline]
    refine ⟨hrun, ?_⟩
    intro hns
    refine ⟨?_, stripScheme_ne_nil token hne⟩
    rw [hrun]
    apply TrimSpace_eq_self
    intro c hc
    apply hns c
    unfold stripScheme at hc
    cases hl : reLit "whois://".toList token with
    | none =>
      rw [hl] at hc
      exact hc
    | some r =>
      rw [hl] at hc
      cases r with
      | nil => exact hc
      | cons d r2 => exact reLit_mem _ _ _ hl c hc

/-- Witness of `FindReferralServer_spec` (C14): a text without a label line, and
a text whose second line is `ReferralServer: whois://WHOIS.A.NET`. -/
theorem FindReferralServer_spec_witness :
    FindReferralServer "No match for domain\nLast update: today\n".toList = [] ∧
      FindReferralServer
          "Domain Name: A.NET\nReferralServer: whois://WHOIS.A.NET \r\nStatus: ok".toList =
        "WHOIS.A.NET".toList :=
  ⟨FindReferralServer_spec.1 "No match for domain\nLast update: today\n".toList
      (NoLabelLine_of_labelFree _ (by decide)),
    ((FindReferralServer_spec.2.2 "Domain Name: A.NET\n".toList "ReferralServer".toList
      " ".toList "whois://WHOIS.A.NET".toList " \r".toList "\nStatus: ok".toList
      (Or.inr (by decide))
      (fun p q e hq hp => by
        have hs := labelFree_sound
          ("ReferralServer".toList ++ ':' :: (" ".toList ++
            ("whois://WHOIS.A.NET".toList ++ (" \r".toList ++ "\nStatus: ok".toList))))
          "Domain Name: A.NET\n".toList true (by decide)
        rcases hp with rfl | hp
        · have := hs.1 rfl (by decide)
          rw [List.nil_append] at e
          rw [← e]
          exact this
        · exact hs.2 p q e hq hp)
      (Or.inr (by decide)) (by decide) (by decide) (by decide) (by decide)
      (by decide)).2 (by decide)).1⟩

end Whois
